import Mathlib

/-!
torrengo: the search, rank and select pipeline of `torrengo.go`.

A shallow embedding of `src/torrengo.go`.

* Go `string` values are modelled by Lean `String` (valid UTF-8 text). Go compares
  strings bytewise; on UTF-8 text that order coincides with the code-point order
  of Lean strings.
* Go `int` is the 64-bit signed integer; a parsed index is an `Int` that
  `Atoi` keeps inside `[-2^63, 2^63 - 1]`.
* `[]torrent` is a `List torrent`; the in-place library sort is written in
  state-passing style over that list.
* Standard input is the list of characters still unread; once that list is used
  up the stream is closed for good and every further read reports end of input.
* The adapter package `arc`, the table writer and the `deluge` process are
  parameters of the run.
* The Go library functions the program calls (`strings`, `strconv`, `bufio`,
  `sort`) are modelled after the Go standard library; `sort.Slice` is the
  pattern-defeating quicksort of Go 1.19 and later.

The definitions come first. The theorems then cover `cleanIn`, the selection
loop, the library sort (it returns, it returns a permutation, it returns a
sorted slice, it is stable on short slices and leaves a sorted slice alone),
`sortOut` and `main`.
-/

namespace Torrengo

/-! ## Data model -/

/-- Meta information about one torrent (`type torrent struct`). -/
structure torrent where
  fileURL : String
  magnet : String
  descURL : String
  name : String
  size : String
  seeders : String
  leechers : String
  uplDate : String
  source : String
deriving DecidableEq, Inhabited

/-- The user search (`type search struct`); the field `in` is written `in_`. -/
structure search where
  in_ : String
  out : List torrent
  sourceToLookup : String
deriving DecidableEq, Inhabited

/-! ## Library functions used by the program -/

/-- Go `unicode.IsSpace`: the Latin-1 space characters and the other code points
with the Unicode White_Space property. -/
def IsSpace (c : Char) : Bool :=
  let r := c.toNat
  if r ≤ 0xFF then
    r == 0x09 || r == 0x0A || r == 0x0B || r == 0x0C || r == 0x0D || r == 0x20 ||
      r == 0x85 || r == 0xA0
  else
    r == 0x1680 || (0x2000 ≤ r && r ≤ 0x200A) || r == 0x2028 || r == 0x2029 ||
      r == 0x202F || r == 0x205F || r == 0x3000

/-- Go `strings.TrimSpace`: the text with all leading and trailing white space
removed. -/
def TrimSpace (s : String) : String :=
  String.mk ((s.data.dropWhile IsSpace).reverse.dropWhile IsSpace).reverse

/-- Go `strings.TrimSuffix`: drop `suffix` from the end of `s` when `s` ends with
it, otherwise return `s` unchanged. -/
def TrimSuffix (s suffix : String) : String :=
  if suffix.data.isSuffixOf s.data then
    String.mk (s.data.take (s.data.length - suffix.data.length))
  else s

/-- Go `strings.Join`. -/
def Join (elems : List String) (sep : String) : String :=
  sep.intercalate elems

/-- Digit loop of `strconv.Atoi` / `ParseUint` in base 10: `n = n*10 + digit`,
a syntax error (`none`) at the first character that is not `0`..`9`. -/
def parseDigits : List Char → Nat → Option Nat
  | [], n => some n
  | c :: cs, n =>
    if 48 ≤ c.toNat ∧ c.toNat ≤ 57 then parseDigits cs (n * 10 + (c.toNat - 48)) else none

/-- Go `strconv.Atoi` on a 64-bit platform: an optional sign `+` or `-`, then at
least one decimal digit and nothing else; the value has to fit the `int` range
`[-2^63, 2^63 - 1]`. `none` stands for a non-nil error (syntax or range). -/
def Atoi (s : String) : Option Int :=
  match s.data with
  | [] => none
  | c :: cs =>
    let body := if c = '-' ∨ c = '+' then cs else c :: cs
    match body with
    | [] => none
    | _ =>
      match parseDigits body 0 with
      | none => none
      | some n =>
        if c = '-' then
          if n ≤ 2 ^ 63 then some (-(n : Int)) else none
        else
          if n < 2 ^ 63 then some (n : Int) else none

/-- Go `strconv.Itoa`. -/
def Itoa (i : Int) : String :=
  if i < 0 then "-" ++ Nat.repr i.natAbs else Nat.repr i.toNat

/-- Result of one `bufio.Reader.ReadString`: the data read, whether the error is
non-nil, and the input left unread. -/
structure ReadResult where
  data : String
  err : Bool
  rest : List Char

/-- Go `bufio.Reader.ReadString(delim)` on the unread input: the text up to and
including the first `delim`; when the input ends before a `delim` is found, the
text read so far together with an error (end of input). -/
def ReadString (delim : Char) : List Char → ReadResult
  | [] => ⟨"", true, []⟩
  | c :: cs =>
    if c = delim then ⟨String.mk [c], false, cs⟩
    else
      let r := ReadString delim cs
      ⟨String.mk (c :: r.data.data), r.err, r.rest⟩

/-! ## `sort.Slice`

The library sort behind `sortOut`, as in Go 1.19 and later (`sort.Slice` calls
`pdqsort_func`, file `zsortfunc.go`). The slice is the list `d`; every function
returns the slice after its swaps. `less` is the caller's comparison on
elements, so `data.Less(i, j)` is `less d[i] d[j]` on the current contents.
Loops `for cond { .. }` over an index carry their variant as a counter; the
unbounded loops `for { .. }` and the recursion take a fuel and answer `none`
when it runs out. -/

section SortSlice
variable {α : Type}

/-- The call `data.Less(i, j)` on the current slice contents. -/
def Less (less : α → α → Bool) (d : List α) (i j : Nat) : Bool :=
  match d[i]?, d[j]? with
  | some x, some y => less x y
  | _, _ => false

/-- The call `data.Swap(i, j)`: exchange the elements at `i` and `j`. -/
def Swap (d : List α) (i j : Nat) : List α :=
  match d[i]?, d[j]? with
  | some x, some y => (d.set i y).set j x
  | _, _ => d

/-- Inner loop of `insertionSort_func`:
`for j := i; j > a && data.Less(j, j-1); j-- { data.Swap(j, j-1) }`. -/
def insertionInner (less : α → α → Bool) (a : Nat) : Nat → List α → List α
  | 0, d => d
  | j + 1, d =>
    if a < j + 1 ∧ Less less d (j + 1) j then insertionInner less a j (Swap d (j + 1) j) else d

/-- Go `insertionSort_func(data, a, b)`: the outer loop `for i := a + 1; i < b; i++`. -/
def insertionSort_func (less : α → α → Bool) (d : List α) (a b : Nat) : List α :=
  (List.range' (a + 1) (b - (a + 1))).foldl (fun d i => insertionInner less a i d) d

/-- Go `siftDown_func(data, lo, hi, first)`; the second `Nat` is `root`, which
starts at `lo`. -/
def siftDown_func (less : α → α → Bool) (hi first : Nat) : Nat → Nat → List α → Option (List α)
  | 0, _, _ => none
  | n + 1, root, d =>
    let child := 2 * root + 1
    if child ≥ hi then some d
    else
      let child :=
        if child + 1 < hi ∧ Less less d (first + child) (first + child + 1) then child + 1
        else child
      if ¬ Less less d (first + root) (first + child) then some d
      else siftDown_func less hi first n child (Swap d (first + root) (first + child))

/-- Go `heapSort_func(data, a, b)`: build the heap with `i` from `(hi-1)/2` down
to `0`, then pop with `i` from `hi-1` down to `0`. -/
def heapSort_func (less : α → α → Bool) (d : List α) (a b : Nat) : Option (List α) := do
  let first := a
  let lo := 0
  let hi := b - a
  let d ← (List.range ((hi - 1) / 2 + 1)).reverse.foldlM
    (fun d i => siftDown_func less hi first (hi + 1) i d) d
  (List.range hi).reverse.foldlM
    (fun d i => siftDown_func less i first (i + 1) lo (Swap d first (first + i))) d

/-- The loop `for i <= j && p(i) { i++ }`; the counter is the variant `j + 1 - i`. -/
def scanUp (p : Nat → Bool) (j : Nat) : Nat → Nat → Nat
  | 0, i => i
  | n + 1, i => if i ≤ j ∧ p i then scanUp p j n (i + 1) else i

/-- The loop `for i <= j && p(j) { j-- }`, by recursion on `j`. Every caller has
`i ≥ 1`, so the loop has stopped when `j` is `0`. -/
def scanDown (p : Nat → Bool) (i : Nat) : Nat → Nat
  | 0 => 0
  | j + 1 => if i ≤ j + 1 ∧ p (j + 1) then scanDown p i j else j + 1

/-- The `for { .. }` loop of `partition_func`; returns the slice and the final `j`. -/
def partitionLoop (less : α → α → Bool) (a : Nat) :
    Nat → List α → Nat → Nat → Option (List α × Nat)
  | 0, _, _, _ => none
  | n + 1, d, i, j =>
    let i := scanUp (fun i => Less less d i a) j (j + 1 - i) i
    let j := scanDown (fun j => ! Less less d j a) i j
    if i > j then some (d, j)
    else partitionLoop less a n (Swap d i j) (i + 1) (j - 1)

/-- Go `partition_func(data, a, b, pivot)`: the slice, `newpivot` and
`alreadyPartitioned`. -/
def partition_func (less : α → α → Bool) (d : List α) (a b pivot : Nat) :
    Option (List α × Nat × Bool) :=
  let d := Swap d a pivot
  let i := a + 1
  let j := b - 1
  let i := scanUp (fun i => Less less d i a) j (j + 1 - i) i
  let j := scanDown (fun j => ! Less less d j a) i j
  if i > j then some (Swap d j a, j, true)
  else
    let d := Swap d i j
    match partitionLoop less a (b - a + 1) d (i + 1) (j - 1) with
    | none => none
    | some (d, j) => some (Swap d j a, j, false)

/-- The `for { .. }` loop of `partitionEqual_func`; returns the slice and the final `i`. -/
def partitionEqualLoop (less : α → α → Bool) (a : Nat) :
    Nat → List α → Nat → Nat → Option (List α × Nat)
  | 0, _, _, _ => none
  | n + 1, d, i, j =>
    let i := scanUp (fun i => ! Less less d a i) j (j + 1 - i) i
    let j := scanDown (fun j => Less less d a j) i j
    if i > j then some (d, i)
    else partitionEqualLoop less a n (Swap d i j) (i + 1) (j - 1)

/-- Go `partitionEqual_func(data, a, b, pivot)`. -/
def partitionEqual_func (less : α → α → Bool) (d : List α) (a b pivot : Nat) :
    Option (List α × Nat) :=
  let d := Swap d a pivot
  partitionEqualLoop less a (b - a + 1) d (a + 1) (b - 1)

/-- In `partialInsertionSort_func`, the loop
`for j := i - 1; j >= 1; j-- { if !data.Less(j, j-1) { break }; data.Swap(j, j-1) }`;
the argument is `j - 1`. -/
def shiftLeft (less : α → α → Bool) : Nat → List α → List α
  | 0, d => d
  | j + 1, d => if ¬ Less less d (j + 1) j then d else shiftLeft less j (Swap d (j + 1) j)

/-- In `partialInsertionSort_func`, the loop
`for j := i + 1; j < b; j++ { if !data.Less(j, j-1) { break }; data.Swap(j, j-1) }`;
the counter is the variant `b - j`. -/
def shiftRight (less : α → α → Bool) (b : Nat) : Nat → Nat → List α → List α
  | 0, _, d => d
  | n + 1, j, d =>
    if j < b then
      if ¬ Less less d j (j - 1) then d else shiftRight less b n (j + 1) (Swap d j (j - 1))
    else d

/-- The loop `for j := 0; j < maxSteps; j++` of `partialInsertionSort_func`, the
counter being the steps left. -/
def partialInsertionSortLoop (less : α → α → Bool) (a b : Nat) :
    Nat → List α → Nat → List α × Bool
  | 0, d, _ => (d, false)
  | steps + 1, d, i =>
    let i := scanUp (fun i => ! Less less d i (i - 1)) (b - 1) (b - i) i
    if i = b then (d, true)
    else if b - a < 50 then (d, false)
    else
      let d := Swap d i (i - 1)
      let d := if i - a ≥ 2 then shiftLeft less (i - 1) d else d
      let d := if b - i ≥ 2 then shiftRight less b (b - (i + 1)) (i + 1) d else d
      partialInsertionSortLoop less a b steps d i

/-- Go `partialInsertionSort_func(data, a, b)` with `maxSteps = 5` and
`shortestShifting = 50`: the slice and whether it is sorted at the end. -/
def partialInsertionSort_func (less : α → α → Bool) (d : List α) (a b : Nat) : List α × Bool :=
  partialInsertionSortLoop less a b 5 d (a + 1)

/-- Go `xorshift.Next` on a `uint64` state (shifts 13, 7, 17). It only picks
the swap partners of `breakPatterns_func`. -/
def xorshiftNext (r : Nat) : Nat :=
  let r := r ^^^ ((r <<< 13) % 2 ^ 64)
  let r := r ^^^ (r >>> 7)
  let r := r ^^^ ((r <<< 17) % 2 ^ 64)
  r

/-- Halving loop behind `bitsLen`. -/
def bitsLenAux : Nat → Nat → Nat
  | 0, _ => 0
  | n + 1, x => if x = 0 then 0 else bitsLenAux n (x / 2) + 1

/-- Go `bits.Len`: the number of bits needed to write `x`, `0` for `x = 0`. -/
def bitsLen (x : Nat) : Nat := bitsLenAux x x

/-- Go `nextPowerOfTwo`. -/
def nextPowerOfTwo (length : Nat) : Nat := 1 <<< bitsLen length

/-- Go `breakPatterns_func(data, a, b)`: three swaps around the middle with
pseudo-random partners. -/
def breakPatterns_func (d : List α) (a b : Nat) : List α :=
  let length := b - a
  if length ≥ 8 then
    let modulus := nextPowerOfTwo length
    let idx := a + (length / 4) * 2 - 1
    let r1 := xorshiftNext length
    let r2 := xorshiftNext r1
    let r3 := xorshiftNext r2
    let other := fun (r : Nat) =>
      let o := r &&& (modulus - 1)
      if o ≥ length then o - length else o
    let d := Swap d (idx - 1 + 0) (a + other r1)
    let d := Swap d (idx - 1 + 1) (a + other r2)
    Swap d (idx - 1 + 2) (a + other r3)
  else d

/-- Go `sortedHint`. -/
inductive sortedHint where
  | unknownHint
  | increasingHint
  | decreasingHint
deriving DecidableEq

/-- Go `order2_func(data, a, b, swaps)`: the two indices in order and the swap count. -/
def order2_func (less : α → α → Bool) (d : List α) (a b swaps : Nat) : Nat × Nat × Nat :=
  if Less less d b a then (b, a, swaps + 1) else (a, b, swaps)

/-- Go `median_func(data, a, b, c, swaps)`: the index of the median and the swap count. -/
def median_func (less : α → α → Bool) (d : List α) (a b c swaps : Nat) : Nat × Nat :=
  let (a, b, swaps) := order2_func less d a b swaps
  let (b, _, swaps) := order2_func less d b c swaps
  let (_, b, swaps) := order2_func less d a b swaps
  (b, swaps)

/-- Go `medianAdjacent_func(data, a, swaps)`. -/
def medianAdjacent_func (less : α → α → Bool) (d : List α) (a swaps : Nat) : Nat × Nat :=
  median_func less d (a - 1) a (a + 1) swaps

/-- Go `choosePivot_func(data, a, b)` with `shortestNinther = 50` and
`maxSwaps = 12`; `chosen` is the index `j` and the count `swaps` after the
`if l >= 8` block. -/
def choosePivot_func (less : α → α → Bool) (d : List α) (a b : Nat) : Nat × sortedHint :=
  let l := b - a
  let swaps := 0
  let i := a + l / 4 * 1
  let j := a + l / 4 * 2
  let k := a + l / 4 * 3
  let chosen : Nat × Nat :=
    if l ≥ 8 then
      if l ≥ 50 then
        let mi := medianAdjacent_func less d i swaps
        let mj := medianAdjacent_func less d j mi.2
        let mk := medianAdjacent_func less d k mj.2
        median_func less d mi.1 mj.1 mk.1 mk.2
      else median_func less d i j k swaps
    else (j, swaps)
  let j := chosen.1
  let swaps := chosen.2
  if swaps = 0 then (j, .increasingHint)
  else if swaps = 12 then (j, .decreasingHint)
  else (j, .unknownHint)

/-- Go `reverseRange_func(data, a, b)`: swap `a + k` with `b - 1 - k` while the
first index is below the second. -/
def reverseRange_func (d : List α) (a b : Nat) : List α :=
  (List.range ((b - a) / 2)).foldl (fun d k => Swap d (a + k) (b - 1 - k)) d

/-- What one pass of the loop of `pdqsort_func` has before it partitions: the
slice, `limit`, `pivot`, and whether `partialInsertionSort_func` found the
slice sorted. -/
structure Prepared (α : Type) where
  d : List α
  limit : Nat
  pivot : Nat
  sorted : Bool

/-- The loop body of `pdqsort_func` from `if !wasBalanced` through the call of
`partialInsertionSort_func`: break patterns after an unbalanced partition,
choose the pivot, reverse a decreasing range, try the partial insertion sort. -/
def pdqsortPrepare (less : α → α → Bool) (d : List α) (a b limit : Nat)
    (wasBalanced wasPartitioned : Bool) : Prepared α :=
  let broken := if ¬ wasBalanced then (breakPatterns_func d a b, limit - 1) else (d, limit)
  let d := broken.1
  let limit := broken.2
  let chosen := choosePivot_func less d a b
  let reversed :=
    if chosen.2 = .decreasingHint then
      (reverseRange_func d a b, (b - 1) - (chosen.1 - a), sortedHint.increasingHint)
    else (d, chosen.1, chosen.2)
  let d := reversed.1
  let pivot := reversed.2.1
  let hint := reversed.2.2
  if wasBalanced ∧ wasPartitioned ∧ hint = .increasingHint then
    let tried := partialInsertionSort_func less d a b
    ⟨tried.1, limit, pivot, tried.2⟩
  else ⟨d, limit, pivot, false⟩

/-- Go `pdqsort_func(data, a, b, limit)`. The loop variables `wasBalanced` and
`wasPartitioned` are arguments (a recursive call starts with both `true`); one
unit of fuel is spent per pass of the loop and per recursive call. -/
def pdqsort_func (less : α → α → Bool) :
    Nat → List α → Nat → Nat → Nat → Bool → Bool → Option (List α)
  | 0, _, _, _, _, _, _ => none
  | fuel + 1, d, a, b, limit, wasBalanced, wasPartitioned =>
    let length := b - a
    if length ≤ 12 then some (insertionSort_func less d a b)
    else if limit = 0 then heapSort_func less d a b
    else
      let p := pdqsortPrepare less d a b limit wasBalanced wasPartitioned
      if p.sorted then some p.d
      else if a > 0 ∧ ¬ Less less p.d (a - 1) p.pivot then
        match partitionEqual_func less p.d a b p.pivot with
        | none => none
        | some (d, mid) => pdqsort_func less fuel d mid b p.limit wasBalanced wasPartitioned
      else
        match partition_func less p.d a b p.pivot with
        | none => none
        | some (d, mid, alreadyPartitioned) =>
          let leftLen := mid - a
          let rightLen := b - mid
          let balanceThreshold := length / 8
          if leftLen < rightLen then
            match pdqsort_func less fuel d a mid p.limit true true with
            | none => none
            | some d =>
              pdqsort_func less fuel d (mid + 1) b p.limit
                (decide (leftLen ≥ balanceThreshold)) alreadyPartitioned
          else
            match pdqsort_func less fuel d (mid + 1) b p.limit true true with
            | none => none
            | some d =>
              pdqsort_func less fuel d a mid p.limit
                (decide (rightLen ≥ balanceThreshold)) alreadyPartitioned

/-- Go `sort.Slice(x, less)`: `pdqsort_func` on the whole slice with
`limit = bits.Len(length)`. -/
def Slice (less : α → α → Bool) (x : List α) : Option (List α) :=
  let length := x.length
  let limit := bitsLen length
  pdqsort_func less (length + 1) x 0 length limit true true

end SortSlice

/-! ## `cleanIn` -/

/-- Method `search.cleanIn`: the call `strings.TrimSpace(s.in)` is evaluated and
its result dropped, then an error is returned iff `s.in` is the empty string.
The result is the search after the call and the returned error (`none` = nil). -/
def search.cleanIn (s : search) : search × Option String :=
  let _ := TrimSpace s.in_
  if s.in_ = "" then
    (s, some "user input should not be empty")
  else
    (s, none)

/-! ## The selection loop of `main` -/

/-- The terminal as the selection loop sees it: unread standard input and the
lines printed so far. -/
structure Console where
  stdin : List Char
  stdout : List String
deriving DecidableEq

/-- One pass through the body of the `for` loop that reads the index: `some i`
when the loop breaks with `index = i`, `none` when it takes a `continue`. -/
def selectStep (c : Console) : Console × Option Int :=
  let r := ReadString '\n' c.stdin
  if r.err then
    (⟨r.rest, c.stdout ++
      ["Could not read your input, please try again (should be an integer):"]⟩, none)
  else
    match Atoi (TrimSuffix r.data "\n") with
    | none => (⟨r.rest, c.stdout ++ ["Please enter an integer:"]⟩, none)
    | some i => (⟨r.rest, c.stdout⟩, some i)

/-- Where the selection loop stands after a bounded number of passes. -/
inductive LoopResult where
  | selected (c : Console) (index : Int)
  | awaiting (c : Console)
deriving DecidableEq

/-- The selection loop run for at most `n` passes. -/
def selectLoop : Nat → Console → LoopResult
  | 0, c => .awaiting c
  | n + 1, c =>
    match selectStep c with
    | (c', some i) => .selected c' i
    | (c', none) => selectLoop n c'

/-! ## `sortOut` and `render` -/

/-- The comparison closure of `sortOut`, `s.out[i].seeders > s.out[j].seeders`:
Go orders strings lexicographically. -/
def seedersGreater (x y : torrent) : Bool :=
  decide (y.seeders.data < x.seeders.data)

/-- Method `search.sortOut`: `sort.Slice` on `s.out` with `seedersGreater`. -/
def search.sortOut (s : search) : Option search :=
  match Slice seedersGreater s.out with
  | none => none
  | some out => some { s with out := out }

/-- Function `render`, up to the rows `renderedTorrents` it hands to the table
writer: row `i` holds `strconv.Itoa(i)` and six fields of `torrents[i]`. -/
def render (torrents : List torrent) : List (List String) :=
  torrents.mapIdx fun i t =>
    [Itoa (i : Int), t.name, t.size, t.seeders, t.leechers, t.uplDate, t.source]

/-! ## `main` -/

/-- A raw result of the `arc` adapter, with the two fields `main` reads. -/
structure ArcTorrent where
  DescURL : String
  Name : String
deriving DecidableEq

/-- The package `arc` as `main` calls it; an error is its message. -/
structure Adapter where
  Lookup : String → Except String (List ArcTorrent)
  Download : String → Except String String

/-- Everything a run of `main` depends on: the value given to flag `-w` if any,
the remaining arguments, standard input, the adapter, and the error (if any)
of running `deluge` on a file path. -/
structure Env where
  w : Option String
  args : List String
  stdin : List Char
  arc : Adapter
  deluge : String → Option String

/-- How a run ends. -/
inductive Exit where
  | returned
  | exit (code : Nat)
  | fatal (msg : String)
  | indexOutOfRange (index : Int) (len : Nat)
  | awaitingInput
  | sorting
deriving DecidableEq

/-- What a run does: the lines printed, the queries passed to `arc.Lookup`, the
value of `s.out` when the run ends, the rows rendered, the index the selection
loop left in `index`, the references passed to `arc.Download`, the paths passed
to `deluge`, and how it ends. -/
structure Run where
  stdout : List String
  lookups : List String
  out : List torrent
  table : Option (List (List String))
  index : Option Int
  downloads : List String
  opened : List String
  exit : Exit
deriving DecidableEq

/-- The subscript `out[index]` of Go: a run-time panic unless
`0 ≤ index < len(out)`. -/
def subscript (out : List torrent) (index : Int) : Option torrent :=
  if 0 ≤ index then out[index.toNat]? else none

/-- The first `switch` of `main` ("Search torrents"): the search after it, the
lines printed, the queries passed to `arc.Lookup`; or the error given to
`log.Fatal`. -/
def searchTorrents (arc : Adapter) (s : search) :
    Except String (search × List String × List String) :=
  if s.sourceToLookup = "archive" then
    match arc.Lookup s.in_ with
    | .error err => .error err
    | .ok arcTorrents =>
      .ok ({ s with out := s.out ++ arcTorrents.map fun arcTorrent =>
              { fileURL := "", magnet := "", descURL := arcTorrent.DescURL,
                name := arcTorrent.Name, size := "", seeders := "", leechers := "",
                uplDate := "", source := "Archive" } }, [], [s.in_])
  else if s.sourceToLookup = "all" then
    .ok (s, ["Lookup all"], [])
  else
    .ok (s, [], [])

/-- The last two `switch` statements of `main` ("Download torrent" and "Open
torrent in client"), from the run so far. -/
def downloadAndOpen (e : Env) (s : search) (index : Int) (r : Run) : Run :=
  if s.sourceToLookup = "archive" then
    match subscript s.out index with
    | none => { r with exit := .indexOutOfRange index s.out.length }
    | some t =>
      match e.arc.Download t.descURL with
      | .error err => { r with downloads := r.downloads ++ [t.descURL], exit := .fatal err }
      | .ok filePath =>
        let r := { r with
          downloads := r.downloads ++ [t.descURL],
          stdout := r.stdout ++ ["Here is your torrent file: " ++ filePath,
            "Opening torrent in client..."],
          opened := r.opened ++ [filePath] }
        match e.deluge filePath with
        | some err =>
          let msg := "Could not open your torrent in client, you need to do it manually: " ++ err
          { r with exit := Exit.fatal msg }
        | none => { r with exit := .returned }
  else if s.sourceToLookup = "all" then
    { r with stdout := r.stdout ++ ["Download all", "Open all"], exit := .returned }
  else
    { r with exit := .returned }

/-- The part of `main` from "Sort results" on: `sortOut`, `render`, the
selection loop run for at most `n` passes, then download and open. `printed`
and `lookups` are the lines printed and the lookups made before. -/
def rankAndSelect (n : Nat) (e : Env) (s : search) (printed lookups : List String) : Run :=
  match s.sortOut with
  | none => ⟨printed, lookups, s.out, none, none, [], [], .sorting⟩
  | some s =>
    let table := render s.out
    let c : Console :=
      ⟨e.stdin, printed ++ ["Please select a torrent to download (enter its index): "]⟩
    match selectLoop n c with
    | .awaiting c => ⟨c.stdout, lookups, s.out, some table, none, [], [], .awaitingInput⟩
    | .selected c index =>
      downloadAndOpen e s index
        ⟨c.stdout, lookups, s.out, some table, some index, [], [], .returned⟩

/-- Function `main`, with the selection loop run for at most `n` passes
(`Exit.awaitingInput`: still in the loop after `n` passes). -/
def main (n : Nat) (e : Env) : Run :=
  let websitePtr := e.w.getD "all"
  let args := e.args
  if args.length = 0 then
    ⟨[], [], [], none, none, [], [], .exit 1⟩
  else
    let s : search := { in_ := Join args " ", out := [], sourceToLookup := websitePtr }
    match s.cleanIn with
    | (s, some err) => ⟨[], [], s.out, none, none, [], [], .fatal err⟩
    | (s, none) =>
      match searchTorrents e.arc s with
      | .error err => ⟨[], [s.in_], s.out, none, none, [], [], .fatal err⟩
      | .ok (s, printed, lookups) => rankAndSelect n e s printed lookups

/-- The input stream made of the given line contents, each followed by its
line terminator, then `rest`. -/
def linesThen (lines : List String) (rest : List Char) : List Char :=
  lines.foldr (fun l acc => l.data ++ '\n' :: acc) rest

/-- Thirteen torrents named `a` to `m`: the first twelve with seeders `0`, the
last with seeders `1`. -/
def thirteen : List torrent :=
  ["a", "b", "c", "d", "e", "f", "g", "h", "i", "j", "k", "l"].map
    (fun n => ⟨"", "", "", n, "", "0", "", "", ""⟩) ++ [⟨"", "", "", "m", "", "1", "", "", ""⟩]

/-- A run with `-w archive ubuntu`: the adapter finds two results, the user
types `1`. -/
def archiveRun : Env :=
  ⟨some "archive", ["ubuntu"], "1\n".data,
    ⟨fun _ => .ok [⟨"u0", "n0"⟩, ⟨"u1", "n1"⟩], fun _ => .ok "f"⟩, fun _ => none⟩

/-- A run with the argument `ubuntu` and no `-w` flag: the adapter would find
one result, the user types `0`. -/
def allRun : Env :=
  ⟨none, ["ubuntu"], "0\n".data, ⟨fun _ => .ok [⟨"u0", "n0"⟩], fun _ => .ok "f"⟩, fun _ => none⟩

/-! ## What it means for a slice to be sorted -/

/-- A comparison fit for sorting: `less` is asymmetric, and "not less" is
transitive (a strict weak order). -/
structure StrictWeak {α : Type} (less : α → α → Bool) : Prop where
  asymm : ∀ x y, less x y = true → less y x = false
  negTrans : ∀ x y z, less x y = false → less y z = false → less x z = false

/-- The exchange of `i` and `j` on indices. -/
def transpose (i j k : Nat) : Nat :=
  if k = i then j else if k = j then i else k

/-- The range `[a, b)` of the slice is sorted: no element of it is `less` than
an element before it. -/
def SortedOn {α : Type} (less : α → α → Bool) (d : List α) (a b : Nat) : Prop :=
  ∀ i j, a ≤ i → i < j → j < b → Less less d j i = false

/-- The slice `d'` is `d` with the elements of the range `[a, b)` moved around
inside that range. -/
def RangeStep {α : Type} (d d' : List α) (a b : Nat) : Prop :=
  d'.length = d.length ∧ (∀ k, k < a ∨ b ≤ k → d'[k]? = d[k]?) ∧
    (∀ k, a ≤ k → k < b → ∃ k', a ≤ k' ∧ k' < b ∧ d'[k]? = d[k']?)

/-- The invariant of `pdqsort_func` on the left neighbour of the range: no
element of `[a, b)` is `less` than the element just before the range. -/
def LeftBound {α : Type} (less : α → α → Bool) (d : List α) (a b : Nat) : Prop :=
  a = 0 ∨ ∀ k, a ≤ k → k < b → Less less d k (a - 1) = false

/-- The heap property of `heapSort_func` on the nodes from `lo` on, for the heap
of size `hi` stored from index `first`: no node is `less` than a child. -/
def HeapFrom {α : Type} (less : α → α → Bool) (d : List α) (first lo hi : Nat) : Prop :=
  ∀ i c, lo ≤ i → (c = 2 * i + 1 ∨ c = 2 * i + 2) → c < hi →
    Less less d (first + i) (first + c) = false

/-! ## The library functions on examples -/

/-- `Atoi` on signs, digits, white space and the ends of the `int` range. -/
theorem Atoi_examples :
    Atoi "42" = some 42 ∧ Atoi "-7" = some (-7) ∧ Atoi "+3" = some 3 ∧ Atoi "007" = some 7 ∧
      Atoi "" = none ∧ Atoi "-" = none ∧ Atoi " 1" = none ∧ Atoi "1\r" = none ∧
      Atoi "1_0" = none ∧ Atoi "abc" = none ∧
      Atoi "9223372036854775807" = some 9223372036854775807 ∧
      Atoi "9223372036854775808" = none ∧
      Atoi "-9223372036854775808" = some (-9223372036854775808) ∧
      Atoi "-9223372036854775809" = none := by
  decide

/-- `TrimSpace`, `TrimSuffix`, `Join` and `Itoa` on examples. -/
theorem string_function_examples :
    TrimSpace "  ubuntu  " = "ubuntu" ∧ TrimSpace "\t a b \n" = "a b" ∧ TrimSpace "" = "" ∧
      TrimSuffix "12\n" "\n" = "12" ∧ TrimSuffix "12\n\n" "\n" = "12\n" ∧
      TrimSuffix "12" "\n" = "12" ∧
      Join ["ubuntu", "iso"] " " = "ubuntu iso" ∧ Join ["x"] " " = "x" ∧
      Itoa 0 = "0" ∧ Itoa 12 = "12" ∧ Itoa (-3) = "-3" := by
  decide

/-! ## Properties of `cleanIn` -/

/-- `cleanIn` never changes the search: the trimmed text is computed and dropped. -/
theorem cleanIn_fst (s : search) : s.cleanIn.1 = s := by
  unfold search.cleanIn
  split <;> rfl

/-- `cleanIn` returns an error exactly when `s.in` is the empty string. -/
theorem cleanIn_snd_eq_none_iff (s : search) : s.cleanIn.2 = none ↔ s.in_ ≠ "" := by
  unfold search.cleanIn
  split <;> simp_all

/-- C2, the code at the failing input: the text `"   "` is all white space and
trims to the empty string, yet `cleanIn` returns nil on it. -/
theorem cleanIn_blank_returns_nil :
    "   ".data.all IsSpace = true ∧ TrimSpace "   " = "" ∧
      (search.cleanIn ⟨"   ", [], "archive"⟩).2 = none := by
  decide

/-- C3, the code at the failing input: `cleanIn` returns nil on `"  ubuntu  "`
and leaves `s.in` as it was, not the trimmed `"ubuntu"`; `main` then passes the
untrimmed text to `arc.Lookup`. -/
theorem cleanIn_keeps_surrounding_spaces :
    search.cleanIn ⟨"  ubuntu  ", [], "archive"⟩ = (⟨"  ubuntu  ", [], "archive"⟩, none) ∧
      TrimSpace "  ubuntu  " = "ubuntu" ∧
      (main 1 ⟨some "archive", ["  ubuntu  "], "0\n".data,
        ⟨fun _ => .ok [], fun _ => .ok ""⟩, fun _ => none⟩).lookups = ["  ubuntu  "] := by
  decide

/-! ## Properties of the selection loop -/

/-- Reading from an input that holds no delimiter returns all of it with an
error and leaves the input used up. -/
theorem ReadString_of_not_mem (delim : Char) (l : List Char) (h : delim ∉ l) :
    ReadString delim l = ⟨String.mk l, true, []⟩ := by
  induction l with
  | nil => rfl
  | cons c cs ih =>
    have hc : c ≠ delim := fun e => h (by simp [e])
    have hcs : delim ∉ cs := fun e => h (by simp [e])
    simp [ReadString, hc, ih hcs]

/-- Reading a line: the text up to and including the first delimiter. -/
theorem ReadString_line (delim : Char) (l rest : List Char) (h : delim ∉ l) :
    ReadString delim (l ++ delim :: rest) = ⟨String.mk (l ++ [delim]), false, rest⟩ := by
  induction l with
  | nil => simp [ReadString]
  | cons c cs ih =>
    have hc : c ≠ delim := fun e => h (by simp [e])
    have hcs : delim ∉ cs := fun e => h (by simp [e])
    simp [ReadString, hc, ih hcs]

/-- Removing the line terminator from a line gives back its content. -/
theorem TrimSuffix_line (l : List Char) :
    TrimSuffix (String.mk (l ++ ['\n'])) "\n" = String.mk l := by
  have h : ("\n" : String).data = ['\n'] := rfl
  simp [TrimSuffix, h]

/-- One pass of the loop on a closed input: the read fails, the diagnostic is
printed and the loop goes on with the input used up. -/
theorem selectStep_closed (l : List Char) (out : List String) (h : '\n' ∉ l) :
    selectStep ⟨l, out⟩ = (⟨[], out ++
      ["Could not read your input, please try again (should be an integer):"]⟩, none) := by
  simp [selectStep, ReadString_of_not_mem _ _ h]

/-- One pass of the loop on a line that `Atoi` rejects. -/
theorem selectStep_bad_line (l : String) (rest : List Char) (out : List String)
    (h : '\n' ∉ l.data) (hl : Atoi l = none) :
    selectStep ⟨l.data ++ '\n' :: rest, out⟩ =
      (⟨rest, out ++ ["Please enter an integer:"]⟩, none) := by
  simp [selectStep, ReadString_line _ _ _ h, TrimSuffix_line, hl]

/-- One pass of the loop on a line that `Atoi` accepts. -/
theorem selectStep_good_line (l : String) (v : Int) (rest : List Char) (out : List String)
    (h : '\n' ∉ l.data) (hl : Atoi l = some v) :
    selectStep ⟨l.data ++ '\n' :: rest, out⟩ = (⟨rest, out⟩, some v) := by
  simp [selectStep, ReadString_line _ _ _ h, TrimSuffix_line, hl]

/-- The loop after `m` passes over lines that `Atoi` rejects. -/
theorem selectLoop_bad_lines (bad : List String) (rest : List Char)
    (hbad : ∀ l ∈ bad, '\n' ∉ l.data ∧ Atoi l = none) (m : Nat) (out : List String) :
    selectLoop (bad.length + m) ⟨linesThen bad rest, out⟩ =
      selectLoop m ⟨rest, out ++ List.replicate bad.length "Please enter an integer:"⟩ := by
  induction bad generalizing out with
  | nil => simp [linesThen]
  | cons l ls ih =>
    have h1 := hbad l (by simp)
    have h2 : ∀ l ∈ ls, '\n' ∉ l.data ∧ Atoi l = none := fun x hx => hbad x (by simp [hx])
    have e : (l :: ls).length + m = (ls.length + m) + 1 := by simp; omega
    rw [e, selectLoop]
    simp only [linesThen, List.foldr_cons]
    rw [selectStep_bad_line l _ out h1.1 h1.2]
    have := ih h2 (out ++ ["Please enter an integer:"])
    simp only [linesThen] at this
    show selectLoop (ls.length + m) _ = _
    rw [this]
    simp [List.replicate_succ]

/-- C8: on an input whose first `k` lines are rejected by `Atoi` (after removal
of the one trailing line terminator, the only normalisation) and whose next
line is accepted with value `v`, the loop is still running after any `m ≤ k`
passes, having printed `m` times "Please enter an integer:", and with more than
`k` passes it exits with `index = v` after exactly `k` such diagnostics. -/
theorem selectLoop_retries_until_integer (bad : List String) (good : String) (v : Int)
    (rest : List Char) (out : List String)
    (hbad : ∀ l ∈ bad, '\n' ∉ l.data ∧ Atoi l = none)
    (hgood : '\n' ∉ good.data) (hv : Atoi good = some v) :
    (∀ m, m ≤ bad.length → ∃ c, selectLoop m ⟨linesThen (bad ++ [good]) rest, out⟩ =
        .awaiting c ∧ c.stdout = out ++ List.replicate m "Please enter an integer:") ∧
    (∀ n, bad.length < n → selectLoop n ⟨linesThen (bad ++ [good]) rest, out⟩ =
        .selected ⟨rest, out ++ List.replicate bad.length "Please enter an integer:"⟩ v) := by
  have hsplit : ∀ (xs ys : List String) (r : List Char),
      linesThen (xs ++ ys) r = linesThen xs (linesThen ys r) := by
    intro xs ys r
    simp [linesThen, List.foldr_append]
  constructor
  · intro m hm
    have hb : ∀ l ∈ bad.take m, '\n' ∉ l.data ∧ Atoi l = none :=
      fun l hl => hbad l (List.mem_of_mem_take hl)
    have hlen : (bad.take m).length = m := by simp [hm]
    have e : bad ++ [good] = bad.take m ++ (bad.drop m ++ [good]) := by
      rw [← List.append_assoc, List.take_append_drop]
    have := selectLoop_bad_lines (bad.take m) (linesThen (bad.drop m ++ [good]) rest) hb 0 out
    rw [hlen] at this
    rw [e, hsplit]
    simp only [Nat.add_zero] at this
    rw [this]
    exact ⟨_, rfl, rfl⟩
  · intro n hn
    obtain ⟨m, rfl⟩ : ∃ m, n = bad.length + (m + 1) := ⟨n - bad.length - 1, by omega⟩
    rw [hsplit, selectLoop_bad_lines bad _ hbad (m + 1) out, selectLoop]
    simp only [linesThen, List.foldr_cons, List.foldr_nil]
    rw [selectStep_good_line good v rest _ hgood hv]

/-- C8 at a concrete input: the lines `" 1"`, `"1\r"` and `"abc"` are rejected
and the line `"1"` is accepted. -/
theorem selectLoop_retries_until_integer_witness :
    (∀ l ∈ [" 1", "1\r", "abc"], '\n' ∉ l.data ∧ Atoi l = none) ∧ Atoi "1" = some 1 ∧
    selectLoop 4 ⟨linesThen ([" 1", "1\r", "abc"] ++ ["1"]) "7\n".data, []⟩ =
      .selected ⟨"7\n".data, [] ++ List.replicate 3 "Please enter an integer:"⟩ 1 :=
  ⟨by decide, by decide,
    (selectLoop_retries_until_integer [" 1", "1\r", "abc"] "1" 1 "7\n".data []
      (by decide) (by decide) (by decide)).2 4 (by decide)⟩

/-- The loop on a closed input (no line terminator left to read) is still
running after any number `n` of passes; all it has done is print the read
diagnostic `n` times. -/
theorem selectLoop_closed (l : List Char) (out : List String) (h : '\n' ∉ l) (n : Nat) :
    ∃ c, selectLoop n ⟨l, out⟩ = .awaiting c ∧ c.stdout = out ++ List.replicate n
      "Could not read your input, please try again (should be an integer):" := by
  induction n generalizing l out with
  | zero => exact ⟨_, rfl, by simp⟩
  | succ n ih =>
    rw [selectLoop, selectStep_closed l out h]
    obtain ⟨c, hc, hout⟩ := ih [] (out ++
      ["Could not read your input, please try again (should be an integer):"]) (by simp)
    exact ⟨c, hc, by rw [hout]; simp [List.replicate_succ]⟩

/-- The loop on rejected lines followed by a closed input never exits. -/
theorem selectLoop_rejected_then_closed (bad : List String) (l : List Char)
    (hbad : ∀ x ∈ bad, '\n' ∉ x.data ∧ Atoi x = none) (h : '\n' ∉ l) (n : Nat)
    (out : List String) : ∃ c, selectLoop n ⟨linesThen bad l, out⟩ = .awaiting c := by
  induction bad generalizing n out with
  | nil =>
    obtain ⟨c, hc, _⟩ := selectLoop_closed l out h n
    exact ⟨c, hc⟩
  | cons x xs ih =>
    cases n with
    | zero => exact ⟨_, rfl⟩
    | succ n =>
      have h1 := hbad x (by simp)
      rw [selectLoop]
      simp only [linesThen, List.foldr_cons]
      rw [selectStep_bad_line x _ out h1.1 h1.2]
      exact ih (fun y hy => hbad y (by simp [hy])) n _

/-- C1, the code at the failing input: with three results from the archive and
the line `99`, the loop exits with `index = 99` and the subscript
`s.out[index]` of the download is out of range; the same for the line `-1`. -/
theorem main_accepts_out_of_range_index :
    (main 1 ⟨some "archive", ["ubuntu"], "99\n".data,
        ⟨fun _ => .ok [⟨"u0", "n0"⟩, ⟨"u1", "n1"⟩, ⟨"u2", "n2"⟩], fun _ => .ok "f"⟩,
        fun _ => none⟩).index = some 99 ∧
    (main 1 ⟨some "archive", ["ubuntu"], "99\n".data,
        ⟨fun _ => .ok [⟨"u0", "n0"⟩, ⟨"u1", "n1"⟩, ⟨"u2", "n2"⟩], fun _ => .ok "f"⟩,
        fun _ => none⟩).exit = .indexOutOfRange 99 3 ∧
    (main 1 ⟨some "archive", ["ubuntu"], "-1\n".data,
        ⟨fun _ => .ok [⟨"u0", "n0"⟩, ⟨"u1", "n1"⟩, ⟨"u2", "n2"⟩], fun _ => .ok "f"⟩,
        fun _ => none⟩).exit = .indexOutOfRange (-1) 3 := by
  decide

/-! ## `sort.Slice` keeps the elements -/

section SwapFacts
variable {α : Type}

/-- Overwriting position `j`, which holds `y`, with `a` and putting `y` in front
rearranges `a :: t`. -/
theorem cons_set_perm (t : List α) (j : Nat) (y a : α) (h : t[j]? = some y) :
    (y :: t.set j a).Perm (a :: t) := by
  induction t generalizing j with
  | nil => simp at h
  | cons b t ih =>
    cases j with
    | zero =>
      simp at h
      subst h
      simpa using List.Perm.swap a b t
    | succ j =>
      simp at h
      have h1 : (y :: b :: t.set j a).Perm (b :: y :: t.set j a) := List.Perm.swap b y _
      have h2 : (b :: y :: t.set j a).Perm (b :: a :: t) := (ih j h).cons b
      have h3 : (b :: a :: t).Perm (a :: b :: t) := List.Perm.swap a b t
      simpa using h1.trans (h2.trans h3)

/-- Exchanging two elements rearranges the list. -/
theorem set_set_perm_of_getElem? (d : List α) (i j : Nat) (x y : α)
    (hi : d[i]? = some x) (hj : d[j]? = some y) :
    ((d.set i y).set j x).Perm d := by
  induction d generalizing i j with
  | nil => simp at hi
  | cons a t ih =>
    cases i with
    | zero =>
      simp at hi
      subst hi
      cases j with
      | zero =>
        simp at hj
        subst hj
        simp
      | succ j =>
        simp at hj
        simpa using cons_set_perm t j y a hj
    | succ i =>
      simp at hi
      cases j with
      | zero =>
        simp at hj
        subst hj
        simpa using cons_set_perm t i x a hi
      | succ j =>
        simp at hj
        simpa using (ih i j hi hj).cons a

/-- `data.Swap` rearranges the slice. -/
theorem Swap_perm (d : List α) (i j : Nat) : (Swap d i j).Perm d := by
  unfold Swap
  split
  · next x y hi hj => exact set_set_perm_of_getElem? d i j x y hi hj
  · exact List.Perm.refl _

end SwapFacts

section PermFacts
variable {α : Type}

theorem insertionInner_perm (less : α → α → Bool) (a j : Nat) (d : List α) :
    (insertionInner less a j d).Perm d := by
  induction j generalizing d with
  | zero => exact List.Perm.refl _
  | succ j ih =>
    unfold insertionInner
    split
    · exact (ih _).trans (Swap_perm d _ _)
    · exact List.Perm.refl _

/-- A left fold of steps that each rearrange the slice rearranges it. -/
theorem foldl_perm {β : Type} (f : List α → β → List α) (hf : ∀ d x, (f d x).Perm d)
    (l : List β) (d : List α) : (l.foldl f d).Perm d := by
  induction l generalizing d with
  | nil => exact List.Perm.refl _
  | cons x l ih => exact (ih (f d x)).trans (hf d x)

/-- The same for a fold of steps that may run out of fuel. -/
theorem foldlM_perm {β : Type} (f : List α → β → Option (List α))
    (hf : ∀ d x d', f d x = some d' → d'.Perm d)
    (l : List β) (d d' : List α) (h : l.foldlM f d = some d') : d'.Perm d := by
  induction l generalizing d with
  | nil =>
    simp at h
    subst h
    exact List.Perm.refl _
  | cons x l ih =>
    simp only [List.foldlM_cons] at h
    cases hx : f d x with
    | none => simp [hx] at h
    | some d1 =>
      simp [hx] at h
      exact (ih d1 h).trans (hf d x d1 hx)

theorem insertionSort_func_perm (less : α → α → Bool) (d : List α) (a b : Nat) :
    (insertionSort_func less d a b).Perm d :=
  foldl_perm _ (fun d i => insertionInner_perm less a i d) _ d

theorem siftDown_func_perm (less : α → α → Bool) (hi first n root : Nat) (d d' : List α)
    (h : siftDown_func less hi first n root d = some d') : d'.Perm d := by
  induction n generalizing root d with
  | zero => simp [siftDown_func] at h
  | succ n ih =>
    unfold siftDown_func at h
    simp only at h
    split at h
    · simp at h
      subst h
      exact List.Perm.refl _
    · split at h <;> split at h <;>
        first
        | exact (ih _ _ h).trans (Swap_perm d _ _)
        | (simp at h; subst h; exact List.Perm.refl _)

theorem heapSort_func_perm (less : α → α → Bool) (d d' : List α) (a b : Nat)
    (h : heapSort_func less d a b = some d') : d'.Perm d := by
  unfold heapSort_func at h
  simp only [bind, Option.bind] at h
  split at h
  · simp at h
  · next d1 h1 =>
    have p1 : d1.Perm d :=
      foldlM_perm _ (fun d i d' hd => siftDown_func_perm less _ _ _ _ d d' hd) _ d d1 h1
    have p2 : d'.Perm d1 :=
      foldlM_perm _
        (fun d i d' hd => (siftDown_func_perm less _ _ _ _ _ d' hd).trans (Swap_perm d _ _))
        _ d1 d' h
    exact p2.trans p1

theorem partitionLoop_perm (less : α → α → Bool) (a n : Nat) (d : List α) (i j : Nat)
    (d' : List α) (r : Nat) (h : partitionLoop less a n d i j = some (d', r)) : d'.Perm d := by
  induction n generalizing d i j with
  | zero => simp [partitionLoop] at h
  | succ n ih =>
    unfold partitionLoop at h
    simp only at h
    split at h
    · simp at h
      rw [← h.1]
    · exact (ih _ _ _ h).trans (Swap_perm d _ _)

theorem partition_func_perm (less : α → α → Bool) (d : List α) (a b pivot : Nat)
    (d' : List α) (mid : Nat) (ap : Bool)
    (h : partition_func less d a b pivot = some (d', mid, ap)) : d'.Perm d := by
  unfold partition_func at h
  simp only at h
  split at h
  · simp at h
    rw [← h.1]
    exact (Swap_perm _ _ _).trans (Swap_perm d _ _)
  · split at h
    · simp at h
    · next d1 j1 h1 =>
      simp at h
      rw [← h.1]
      exact (Swap_perm _ _ _).trans
        ((partitionLoop_perm less _ _ _ _ _ _ _ h1).trans
          ((Swap_perm _ _ _).trans (Swap_perm d _ _)))

theorem partitionEqualLoop_perm (less : α → α → Bool) (a n : Nat) (d : List α) (i j : Nat)
    (d' : List α) (r : Nat) (h : partitionEqualLoop less a n d i j = some (d', r)) :
    d'.Perm d := by
  induction n generalizing d i j with
  | zero => simp [partitionEqualLoop] at h
  | succ n ih =>
    unfold partitionEqualLoop at h
    simp only at h
    split at h
    · simp at h
      rw [← h.1]
    · exact (ih _ _ _ h).trans (Swap_perm d _ _)

theorem partitionEqual_func_perm (less : α → α → Bool) (d : List α) (a b pivot : Nat)
    (d' : List α) (mid : Nat)
    (h : partitionEqual_func less d a b pivot = some (d', mid)) : d'.Perm d :=
  (partitionEqualLoop_perm less _ _ _ _ _ _ _ h).trans (Swap_perm d _ _)

theorem shiftLeft_perm (less : α → α → Bool) (j : Nat) (d : List α) :
    (shiftLeft less j d).Perm d := by
  induction j generalizing d with
  | zero => exact List.Perm.refl _
  | succ j ih =>
    unfold shiftLeft
    split
    · exact List.Perm.refl _
    · exact (ih _).trans (Swap_perm d _ _)

theorem shiftRight_perm (less : α → α → Bool) (b n j : Nat) (d : List α) :
    (shiftRight less b n j d).Perm d := by
  induction n generalizing j d with
  | zero => exact List.Perm.refl _
  | succ n ih =>
    unfold shiftRight
    split
    · split
      · exact List.Perm.refl _
      · exact (ih _ _).trans (Swap_perm d _ _)
    · exact List.Perm.refl _

theorem partialInsertionSortLoop_perm (less : α → α → Bool) (a b steps : Nat) (d : List α)
    (i : Nat) : (partialInsertionSortLoop less a b steps d i).1.Perm d := by
  induction steps generalizing d i with
  | zero => exact List.Perm.refl _
  | succ steps ih =>
    unfold partialInsertionSortLoop
    simp only
    split
    · exact List.Perm.refl _
    · split
      · exact List.Perm.refl _
      · refine (ih _ _).trans ?_
        have p0 := Swap_perm d
          (scanUp (fun i => ! Less less d i (i - 1)) (b - 1) (b - i) i)
          (scanUp (fun i => ! Less less d i (i - 1)) (b - 1) (b - i) i - 1)
        split <;> split <;>
          first
          | exact (shiftRight_perm _ _ _ _ _).trans ((shiftLeft_perm _ _ _).trans p0)
          | exact (shiftLeft_perm _ _ _).trans p0
          | exact (shiftRight_perm _ _ _ _ _).trans p0
          | exact p0

theorem partialInsertionSort_func_perm (less : α → α → Bool) (d : List α) (a b : Nat) :
    (partialInsertionSort_func less d a b).1.Perm d :=
  partialInsertionSortLoop_perm less a b 5 d (a + 1)

theorem breakPatterns_func_perm (d : List α) (a b : Nat) :
    (breakPatterns_func d a b).Perm d := by
  unfold breakPatterns_func
  simp only
  split
  · exact (Swap_perm _ _ _).trans ((Swap_perm _ _ _).trans (Swap_perm d _ _))
  · exact List.Perm.refl _

theorem reverseRange_func_perm (d : List α) (a b : Nat) :
    (reverseRange_func d a b).Perm d :=
  foldl_perm _ (fun d _ => Swap_perm d _ _) _ d

end PermFacts

section PdqPerm
variable {α : Type}

theorem pdqsortPrepare_perm (less : α → α → Bool) (d : List α) (a b limit : Nat)
    (wb wp : Bool) : (pdqsortPrepare less d a b limit wb wp).d.Perm d := by
  have h1 : (if ¬ wb then (breakPatterns_func d a b, limit - 1) else (d, limit)).1.Perm d := by
    split
    · exact breakPatterns_func_perm d a b
    · exact List.Perm.refl _
  unfold pdqsortPrepare
  simp only
  generalize (if ¬ wb then (breakPatterns_func d a b, limit - 1) else (d, limit)) = bp at h1 ⊢
  split <;> split <;>
    first
    | exact (partialInsertionSort_func_perm less _ a b).trans
        ((reverseRange_func_perm _ a b).trans h1)
    | exact (partialInsertionSort_func_perm less _ a b).trans h1
    | exact (reverseRange_func_perm _ a b).trans h1
    | exact h1

theorem pdqsort_func_perm (less : α → α → Bool) (fuel : Nat) (d : List α)
    (a b limit : Nat) (wb wp : Bool) (d' : List α)
    (h : pdqsort_func less fuel d a b limit wb wp = some d') : d'.Perm d := by
  induction fuel generalizing d a b limit wb wp d' with
  | zero => simp [pdqsort_func] at h
  | succ fuel ih =>
    unfold pdqsort_func at h
    have hp := pdqsortPrepare_perm less d a b limit wb wp
    generalize pdqsortPrepare less d a b limit wb wp = p at h hp
    simp only at h
    split at h
    · simp at h
      subst h
      exact insertionSort_func_perm less d a b
    · split at h
      · exact heapSort_func_perm less d d' a b h
      · split at h
        · simp at h
          subst h
          exact hp
        · split at h
          · split at h
            · simp at h
            · next d1 mid h1 =>
              exact (ih _ _ _ _ _ _ _ h).trans
                ((partitionEqual_func_perm less _ _ _ _ _ _ h1).trans hp)
          · split at h
            · simp at h
            · next d1 mid ap h1 =>
              have hd1 : d1.Perm d := (partition_func_perm less _ _ _ _ _ _ _ h1).trans hp
              split at h
              · split at h
                · simp at h
                · next d2 h2 =>
                  exact (ih _ _ _ _ _ _ _ h).trans ((ih _ _ _ _ _ _ _ h2).trans hd1)
              · split at h
                · simp at h
                · next d2 h2 =>
                  exact (ih _ _ _ _ _ _ _ h).trans ((ih _ _ _ _ _ _ _ h2).trans hd1)

/-- `sort.Slice` returns a rearrangement of the slice it was given. -/
theorem Slice_perm (less : α → α → Bool) (x x' : List α) (h : Slice less x = some x') :
    x'.Perm x :=
  pdqsort_func_perm less _ x _ _ _ _ _ x' h

end PdqPerm

/-! ## `sort.Slice` returns -/

section Returns
variable {α : Type}

theorem scanUp_ge (p : Nat → Bool) (j n i : Nat) : i ≤ scanUp p j n i := by
  induction n generalizing i with
  | zero => exact Nat.le_refl _
  | succ n ih =>
    unfold scanUp
    split
    · exact Nat.le_trans (Nat.le_succ i) (ih (i + 1))
    · exact Nat.le_refl _

theorem scanUp_le (p : Nat → Bool) (j n i : Nat) :
    scanUp p j n i ≤ j + 1 ∨ scanUp p j n i = i := by
  induction n generalizing i with
  | zero => exact Or.inr rfl
  | succ n ih =>
    unfold scanUp
    split
    · next h =>
      rcases ih (i + 1) with h1 | h1
      · exact Or.inl h1
      · left
        rw [h1]
        omega
    · exact Or.inr rfl

theorem scanDown_le (p : Nat → Bool) (i j : Nat) : scanDown p i j ≤ j := by
  induction j with
  | zero => exact Nat.le_refl _
  | succ j ih =>
    unfold scanDown
    split
    · exact Nat.le_trans ih (Nat.le_succ j)
    · exact Nat.le_refl _

theorem scanDown_ge (p : Nat → Bool) (i j : Nat) :
    i ≤ scanDown p i j + 1 ∨ scanDown p i j = j := by
  induction j with
  | zero => exact Or.inr rfl
  | succ j ih =>
    unfold scanDown
    split
    · next h =>
      rcases ih with h1 | h1
      · exact Or.inl h1
      · left
        rw [h1]
        exact h.1
    · exact Or.inr rfl

theorem partitionLoop_some (less : α → α → Bool) (a n : Nat) (d : List α) (i j : Nat)
    (hi : 1 ≤ i) (hn : j + 1 - i < n) (hij : i ≤ j + 2) :
    ∃ d' r, partitionLoop less a n d i j = some (d', r) ∧ i ≤ r + 2 ∧ r ≤ j := by
  induction n generalizing d i j with
  | zero => omega
  | succ n ih =>
    unfold partitionLoop
    simp only
    have u1 := scanUp_ge (fun i => Less less d i a) j (j + 1 - i) i
    generalize scanUp (fun i => Less less d i a) j (j + 1 - i) i = i' at u1
    have v1 := scanDown_le (fun j => ! Less less d j a) i' j
    have v2 := scanDown_ge (fun j => ! Less less d j a) i' j
    generalize scanDown (fun j => ! Less less d j a) i' j = j' at v1 v2
    split
    · exact ⟨d, j', rfl, by omega, v1⟩
    · next hgt =>
      obtain ⟨d', r, h1, h2, h3⟩ := ih (Swap d i' j') (i' + 1) (j' - 1)
        (by omega) (by omega) (by omega)
      exact ⟨d', r, h1, by omega, by omega⟩

theorem partition_func_some (less : α → α → Bool) (d : List α) (a b pivot : Nat)
    (hab : a + 2 ≤ b) :
    ∃ d' mid ap, partition_func less d a b pivot = some (d', mid, ap) ∧ a ≤ mid ∧ mid < b := by
  unfold partition_func
  simp only
  generalize Swap d a pivot = d0
  have u1 := scanUp_ge (fun i => Less less d0 i a) (b - 1) (b - 1 + 1 - (a + 1)) (a + 1)
  have u2 := scanUp_le (fun i => Less less d0 i a) (b - 1) (b - 1 + 1 - (a + 1)) (a + 1)
  generalize scanUp (fun i => Less less d0 i a) (b - 1) (b - 1 + 1 - (a + 1)) (a + 1) = i'
    at u1 u2
  have v1 := scanDown_le (fun j => ! Less less d0 j a) i' (b - 1)
  have v2 := scanDown_ge (fun j => ! Less less d0 j a) i' (b - 1)
  generalize scanDown (fun j => ! Less less d0 j a) i' (b - 1) = j' at v1 v2
  split
  · exact ⟨_, _, _, rfl, by omega, by omega⟩
  · next hgt =>
    obtain ⟨d', r, h1, h2, h3⟩ := partitionLoop_some less a (b - a + 1) (Swap d0 i' j')
      (i' + 1) (j' - 1) (by omega) (by omega) (by omega)
    rw [h1]
    exact ⟨_, _, _, rfl, by omega, by omega⟩

theorem partitionEqualLoop_some (less : α → α → Bool) (a n : Nat) (d : List α) (i j : Nat)
    (hi : 1 ≤ i) (hn : j + 1 - i < n) :
    ∃ d' r, partitionEqualLoop less a n d i j = some (d', r) ∧ i ≤ r := by
  induction n generalizing d i j with
  | zero => omega
  | succ n ih =>
    unfold partitionEqualLoop
    simp only
    have u1 := scanUp_ge (fun i => ! Less less d a i) j (j + 1 - i) i
    generalize scanUp (fun i => ! Less less d a i) j (j + 1 - i) i = i' at u1
    have v1 := scanDown_le (fun j => Less less d a j) i' j
    generalize scanDown (fun j => Less less d a j) i' j = j' at v1
    split
    · exact ⟨d, i', rfl, u1⟩
    · next hgt =>
      obtain ⟨d', r, h1, h2⟩ := ih (Swap d i' j') (i' + 1) (j' - 1) (by omega) (by omega)
      exact ⟨d', r, h1, by omega⟩

theorem partitionEqual_func_some (less : α → α → Bool) (d : List α) (a b pivot : Nat)
    (hab : a + 2 ≤ b) :
    ∃ d' mid, partitionEqual_func less d a b pivot = some (d', mid) ∧ a < mid := by
  obtain ⟨d', r, h1, h2⟩ := partitionEqualLoop_some less a (b - a + 1) (Swap d a pivot)
    (a + 1) (b - 1) (by omega) (by omega)
  exact ⟨d', r, h1, by omega⟩

theorem siftDown_func_some (less : α → α → Bool) (hi first n root : Nat) (d : List α)
    (h : hi ≤ root + n) : ∃ d', siftDown_func less hi first (n + 1) root d = some d' := by
  induction n generalizing root d with
  | zero =>
    unfold siftDown_func
    simp only
    rw [if_pos (by omega)]
    exact ⟨d, rfl⟩
  | succ n ih =>
    unfold siftDown_func
    simp only
    split
    · exact ⟨d, rfl⟩
    · split <;> split <;>
        first
        | exact ⟨d, rfl⟩
        | exact ih _ _ (by omega)

/-- A fold whose every step returns, returns. -/
theorem foldlM_some {β : Type} (f : List α → β → Option (List α)) (l : List β)
    (hf : ∀ d x, x ∈ l → ∃ d', f d x = some d') (d : List α) :
    ∃ d', l.foldlM f d = some d' := by
  induction l generalizing d with
  | nil => exact ⟨d, rfl⟩
  | cons x l ih =>
    obtain ⟨d1, h1⟩ := hf d x (by simp)
    simp only [List.foldlM_cons, h1]
    exact ih (fun d y hy => hf d y (by simp [hy])) d1

theorem heapSort_func_some (less : α → α → Bool) (d : List α) (a b : Nat) :
    ∃ d', heapSort_func less d a b = some d' := by
  unfold heapSort_func
  obtain ⟨d1, h1⟩ := foldlM_some
    (fun d i => siftDown_func less (b - a) a (b - a + 1) i d)
    (List.range ((b - a - 1) / 2 + 1)).reverse
    (fun d i _ => siftDown_func_some less _ _ _ _ d (by omega)) d
  obtain ⟨d2, h2⟩ := foldlM_some
    (fun d i => siftDown_func less i a (i + 1) 0 (Swap d a (a + i)))
    (List.range (b - a)).reverse
    (fun d i _ => siftDown_func_some less _ _ _ _ _ (by omega)) d1
  exact ⟨d2, by simp only [bind, Option.bind, h1, h2]⟩

theorem pdqsort_func_some (less : α → α → Bool) (fuel : Nat) (d : List α)
    (a b limit : Nat) (wb wp : Bool) (hf : b - a < fuel) :
    ∃ d', pdqsort_func less fuel d a b limit wb wp = some d' := by
  induction fuel generalizing d a b limit wb wp with
  | zero => omega
  | succ fuel ih =>
    unfold pdqsort_func
    generalize pdqsortPrepare less d a b limit wb wp = p
    simp only
    split
    · exact ⟨_, rfl⟩
    · split
      · exact heapSort_func_some less d a b
      · split
        · exact ⟨_, rfl⟩
        · split
          · obtain ⟨d1, mid, h1, h2⟩ :=
              partitionEqual_func_some less p.d a b p.pivot (by omega)
            rw [h1]
            exact ih _ _ _ _ _ _ (by omega)
          · obtain ⟨d1, mid, ap, h1, h2, h3⟩ :=
              partition_func_some less p.d a b p.pivot (by omega)
            rw [h1]
            simp only
            split
            · obtain ⟨d2, e2⟩ := ih d1 a mid p.limit true true (by omega)
              rw [e2]
              exact ih _ _ _ _ _ _ (by omega)
            · obtain ⟨d2, e2⟩ := ih d1 (mid + 1) b p.limit true true (by omega)
              rw [e2]
              exact ih _ _ _ _ _ _ (by omega)

/-- `sort.Slice` returns on every slice. -/
theorem Slice_some (less : α → α → Bool) (x : List α) : ∃ x', Slice less x = some x' :=
  pdqsort_func_some less _ x _ _ _ _ _ (by omega)

end Returns

/-! ## `sort.Slice` on a sorted slice, and on a short one -/

section SortedFacts
variable {α : Type}

/-- On a slice in order, no later element is `less` than an earlier one. -/
theorem Less_eq_false_of_pairwise (less : α → α → Bool) (d : List α)
    (hs : d.Pairwise (fun x y => less y x = false)) (i j : Nat) (hji : j < i) :
    Less less d i j = false := by
  unfold Less
  split
  · next x y hx hy =>
    obtain ⟨hi, rfl⟩ := List.getElem?_eq_some.mp hx
    obtain ⟨hj, rfl⟩ := List.getElem?_eq_some.mp hy
    exact List.pairwise_iff_getElem.mp hs j i hj hi hji
  · rfl

theorem insertionInner_of_pairwise (less : α → α → Bool) (d : List α)
    (hs : d.Pairwise (fun x y => less y x = false)) (a i : Nat) :
    insertionInner less a i d = d := by
  cases i with
  | zero => rfl
  | succ j =>
    unfold insertionInner
    rw [if_neg]
    rw [Less_eq_false_of_pairwise less d hs (j + 1) j (by omega)]
    simp

/-- A fold of steps that leave `d` alone leaves `d` alone. -/
theorem foldl_fixed {β : Type} (f : List α → β → List α) (d : List α)
    (hf : ∀ x, f d x = d) (l : List β) : l.foldl f d = d := by
  induction l with
  | nil => rfl
  | cons x l ih => rw [List.foldl_cons, hf x, ih]

theorem insertionSort_func_of_pairwise (less : α → α → Bool) (d : List α)
    (hs : d.Pairwise (fun x y => less y x = false)) (a b : Nat) :
    insertionSort_func less d a b = d :=
  foldl_fixed _ d (fun i => insertionInner_of_pairwise less d hs a i) _

theorem order2_func_of_pairwise (less : α → α → Bool) (d : List α)
    (hs : d.Pairwise (fun x y => less y x = false)) (a b swaps : Nat) (hab : a < b) :
    order2_func less d a b swaps = (a, b, swaps) := by
  unfold order2_func
  rw [Less_eq_false_of_pairwise less d hs b a hab]
  simp

theorem median_func_of_pairwise (less : α → α → Bool) (d : List α)
    (hs : d.Pairwise (fun x y => less y x = false)) (a b c swaps : Nat)
    (hab : a < b) (hbc : b < c) :
    median_func less d a b c swaps = (b, swaps) := by
  unfold median_func
  simp only [order2_func_of_pairwise less d hs a b swaps hab,
    order2_func_of_pairwise less d hs b c swaps hbc]

theorem choosePivot_func_of_pairwise (less : α → α → Bool) (d : List α)
    (hs : d.Pairwise (fun x y => less y x = false)) (a b : Nat) :
    (choosePivot_func less d a b).2 = .increasingHint := by
  unfold choosePivot_func
  by_cases h8 : b - a ≥ 8
  · have q : 2 ≤ (b - a) / 4 := by omega
    by_cases h50 : b - a ≥ 50
    · have q' : 12 ≤ (b - a) / 4 := by omega
      simp only [if_pos h8, if_pos h50, medianAdjacent_func]
      rw [median_func_of_pairwise less d hs (a + (b - a) / 4 * 1 - 1) _ _ _
        (by omega) (by omega)]
      rw [median_func_of_pairwise less d hs (a + (b - a) / 4 * 2 - 1) _ _ _
        (by omega) (by omega)]
      rw [median_func_of_pairwise less d hs (a + (b - a) / 4 * 3 - 1) _ _ _
        (by omega) (by omega)]
      rw [median_func_of_pairwise less d hs _ _ _ _ (by omega) (by omega)]
      rfl
    · simp only [if_pos h8, if_neg h50]
      rw [median_func_of_pairwise less d hs _ _ _ _ (by omega) (by omega)]
      rfl
  · simp only [if_neg h8]
    rfl

theorem scanUp_all (p : Nat → Bool) (j n i : Nat) (hp : ∀ k, i ≤ k → p k = true)
    (hn : n = j + 1 - i) (hij : i ≤ j + 1) : scanUp p j n i = j + 1 := by
  induction n generalizing i with
  | zero =>
    unfold scanUp
    omega
  | succ n ih =>
    unfold scanUp
    rw [if_pos ⟨by omega, hp i (Nat.le_refl i)⟩]
    exact ih (i + 1) (fun k hk => hp k (by omega)) (by omega) (by omega)

theorem partialInsertionSort_func_of_pairwise (less : α → α → Bool) (d : List α)
    (hs : d.Pairwise (fun x y => less y x = false)) (a b : Nat) (hab : a < b) :
    partialInsertionSort_func less d a b = (d, true) := by
  unfold partialInsertionSort_func partialInsertionSortLoop
  simp only
  have e : scanUp (fun i => ! Less less d i (i - 1)) (b - 1) (b - (a + 1)) (a + 1) = b := by
    rw [scanUp_all _ (b - 1) (b - (a + 1)) (a + 1) ?_ (by omega) (by omega)]
    · omega
    · intro k hk
      rw [Less_eq_false_of_pairwise less d hs k (k - 1) (by omega)]
      rfl
  rw [e]
  simp

theorem pdqsortPrepare_of_pairwise (less : α → α → Bool) (d : List α)
    (hs : d.Pairwise (fun x y => less y x = false)) (a b limit : Nat) (hab : a < b) :
    (pdqsortPrepare less d a b limit true true).d = d ∧
      (pdqsortPrepare less d a b limit true true).sorted = true := by
  unfold pdqsortPrepare
  simp [choosePivot_func_of_pairwise less d hs a b,
    partialInsertionSort_func_of_pairwise less d hs a b hab]

theorem bitsLen_ne_zero (n : Nat) (h : 0 < n) : bitsLen n ≠ 0 := by
  unfold bitsLen
  cases n with
  | zero => omega
  | succ n =>
    unfold bitsLenAux
    simp

/-- `sort.Slice` returns a slice that is already in order unchanged. -/
theorem Slice_of_pairwise (less : α → α → Bool) (x : List α)
    (hs : x.Pairwise (fun x y => less y x = false)) : Slice less x = some x := by
  unfold Slice pdqsort_func
  simp only
  split
  · rw [insertionSort_func_of_pairwise less x hs]
  · next h12 =>
    rw [if_neg (bitsLen_ne_zero _ (by omega))]
    obtain ⟨h1, h2⟩ := pdqsortPrepare_of_pairwise less x hs 0 x.length (bitsLen x.length)
      (by omega)
    rw [if_pos h2, h1]

/-- On at most twelve elements `sort.Slice` is the insertion sort. -/
theorem Slice_short (less : α → α → Bool) (x : List α) (h : x.length ≤ 12) :
    Slice less x = some (insertionSort_func less x 0 x.length) := by
  unfold Slice pdqsort_func
  simp only
  rw [if_pos (by omega)]

end SortedFacts

/-! ## The insertion sort is stable -/

section StableFacts
variable {α : Type}

theorem Swap_cons_succ (x : α) (t : List α) (i j : Nat) :
    Swap (x :: t) (i + 1) (j + 1) = x :: Swap t i j := by
  unfold Swap
  simp only [List.getElem?_cons_succ]
  split <;> simp_all

/-- Exchanging two neighbours of which at most one passes the test `p` leaves
the elements that pass `p` in the same order. -/
theorem Swap_adjacent_filter (p : α → Bool) (d : List α) (j : Nat)
    (h : ∀ x y, d[j + 1]? = some x → d[j]? = some y → ¬ (p x = true ∧ p y = true)) :
    (Swap d (j + 1) j).filter p = d.filter p := by
  induction d generalizing j with
  | nil => simp [Swap]
  | cons y t ih =>
    cases j with
    | zero =>
      cases t with
      | nil => simp [Swap]
      | cons x t =>
        have hxy := h x y (by simp) (by simp)
        have e : Swap (y :: x :: t) (0 + 1) 0 = x :: y :: t := by simp [Swap]
        rw [e]
        cases hx : p x <;> cases hy : p y <;> simp_all [List.filter]
    | succ j =>
      rw [Swap_cons_succ]
      have := ih j (fun x y hx hy => h x y (by simpa using hx) (by simpa using hy))
      simp only [List.filter_cons, this]

/-- When `data.Less(i, j)` holds, both positions are in range and `less` holds
of their elements. -/
theorem Less_eq_true (less : α → α → Bool) (d : List α) (i j : Nat)
    (h : Less less d i j = true) : ∃ x y, d[i]? = some x ∧ d[j]? = some y ∧ less x y = true := by
  unfold Less at h
  split at h
  · next x y hx hy => exact ⟨x, y, hx, hy, h⟩
  · simp at h

theorem insertionInner_filter (less : α → α → Bool) (p : α → Bool)
    (hp : ∀ x y, less x y = true → ¬ (p x = true ∧ p y = true)) (a j : Nat) (d : List α) :
    (insertionInner less a j d).filter p = d.filter p := by
  induction j generalizing d with
  | zero => rfl
  | succ j ih =>
    unfold insertionInner
    split
    · next hc =>
      rw [ih]
      apply Swap_adjacent_filter
      intro x y hx hy
      obtain ⟨x', y', hx', hy', hl⟩ := Less_eq_true less d (j + 1) j hc.2
      rw [hx] at hx'
      rw [hy] at hy'
      cases hx'
      cases hy'
      exact hp x y hl
    · rfl

theorem insertionSort_func_filter (less : α → α → Bool) (p : α → Bool)
    (hp : ∀ x y, less x y = true → ¬ (p x = true ∧ p y = true)) (d : List α) (a b : Nat) :
    (insertionSort_func less d a b).filter p = d.filter p := by
  unfold insertionSort_func
  generalize List.range' (a + 1) (b - (a + 1)) = l
  induction l generalizing d with
  | nil => rfl
  | cons i l ih => rw [List.foldl_cons, ih, insertionInner_filter less p hp]

end StableFacts

/-! ## `sort.Slice` sorts -/

section OrderFacts
variable {α : Type}

theorem transpose_left (i j : Nat) : transpose i j i = j := by
  simp [transpose]

theorem transpose_right (i j : Nat) : transpose i j j = i := by
  unfold transpose
  split <;> simp_all

theorem transpose_other (i j k : Nat) (h1 : k ≠ i) (h2 : k ≠ j) : transpose i j k = k := by
  simp [transpose, h1, h2]

theorem Swap_length (d : List α) (i j : Nat) : (Swap d i j).length = d.length := by
  unfold Swap
  split <;> simp

theorem getElem?_Swap (d : List α) (i j k : Nat) (hi : i < d.length) (hj : j < d.length) :
    (Swap d i j)[k]? = d[transpose i j k]? := by
  unfold Swap transpose
  rw [List.getElem?_eq_getElem hi, List.getElem?_eq_getElem hj]
  simp only
  by_cases h1 : k = j
  · subst h1
    rw [List.getElem?_set_self (by simpa using hj)]
    by_cases h2 : k = i
    · subst h2
      simp
    · simp [h2, List.getElem?_eq_getElem hi]
  · rw [List.getElem?_set_ne (Ne.symm h1)]
    by_cases h2 : k = i
    · subst h2
      rw [List.getElem?_set_self hi]
      simp [List.getElem?_eq_getElem hj]
    · rw [List.getElem?_set_ne (Ne.symm h2)]
      simp [h1, h2]

theorem Less_congr (less : α → α → Bool) (d d' : List α) (i j i' j' : Nat)
    (hi : d'[i]? = d[i']?) (hj : d'[j]? = d[j']?) :
    Less less d' i j = Less less d i' j' := by
  unfold Less
  rw [hi, hj]

theorem Less_Swap (less : α → α → Bool) (d : List α) (p q i j : Nat)
    (hp : p < d.length) (hq : q < d.length) :
    Less less (Swap d p q) i j = Less less d (transpose p q i) (transpose p q j) :=
  Less_congr less d _ i j _ _ (getElem?_Swap d p q i hp hq) (getElem?_Swap d p q j hp hq)

theorem Less_lt_length (less : α → α → Bool) (d : List α) (i j : Nat)
    (h : Less less d i j = true) : i < d.length ∧ j < d.length := by
  obtain ⟨x, y, hx, hy, _⟩ := Less_eq_true less d i j h
  exact ⟨(List.getElem?_eq_some.mp hx).1, (List.getElem?_eq_some.mp hy).1⟩

theorem Less_eq_less (less : α → α → Bool) (d : List α) (i j : Nat)
    (hi : i < d.length) (hj : j < d.length) : Less less d i j = less d[i] d[j] := by
  unfold Less
  rw [List.getElem?_eq_getElem hi, List.getElem?_eq_getElem hj]

theorem Less_asymm (less : α → α → Bool) (hw : StrictWeak less) (d : List α) (i j : Nat)
    (h : Less less d i j = true) : Less less d j i = false := by
  obtain ⟨hi, hj⟩ := Less_lt_length less d i j h
  rw [Less_eq_less less d i j hi hj] at h
  rw [Less_eq_less less d j i hj hi]
  exact hw.asymm _ _ h

theorem Less_negTrans (less : α → α → Bool) (hw : StrictWeak less) (d : List α) (i k j : Nat)
    (hk : k < d.length) (h1 : Less less d i k = false) (h2 : Less less d k j = false) :
    Less less d i j = false := by
  by_cases hi : i < d.length
  · by_cases hj : j < d.length
    · rw [Less_eq_less less d i k hi hk] at h1
      rw [Less_eq_less less d k j hk hj] at h2
      rw [Less_eq_less less d i j hi hj]
      exact hw.negTrans _ _ _ h1 h2
    · unfold Less
      rw [List.getElem?_eq_none (by omega : d.length ≤ j)]
      split <;> simp_all
  · unfold Less
    rw [List.getElem?_eq_none (by omega : d.length ≤ i)]

theorem Less_trans (less : α → α → Bool) (hw : StrictWeak less) (d : List α) (i k j : Nat)
    (h1 : Less less d i k = true) (h2 : Less less d k j = true) :
    Less less d i j = true := by
  obtain ⟨hi, hk⟩ := Less_lt_length less d i k h1
  obtain ⟨_, hj⟩ := Less_lt_length less d k j h2
  by_contra h
  have h' : Less less d i j = false := by simpa using h
  have := Less_negTrans less hw d i j k hj h' (Less_asymm less hw d k j h2)
  rw [h1] at this
  exact Bool.noConfusion this

theorem Less_irrefl (less : α → α → Bool) (hw : StrictWeak less) (d : List α) (i : Nat) :
    Less less d i i = false := by
  by_contra h
  have h' : Less less d i i = true := by simpa using h
  have := Less_asymm less hw d i i h'
  rw [h'] at this
  exact Bool.noConfusion this

end OrderFacts

section RangeFacts
variable {α : Type}

theorem RangeStep.refl (d : List α) (a b : Nat) : RangeStep d d a b :=
  ⟨rfl, fun _ _ => rfl, fun k h1 h2 => ⟨k, h1, h2, rfl⟩⟩

theorem RangeStep.trans {d d' d'' : List α} {a b : Nat}
    (h1 : RangeStep d d' a b) (h2 : RangeStep d' d'' a b) : RangeStep d d'' a b := by
  refine ⟨h2.1.trans h1.1, fun k hk => (h2.2.1 k hk).trans (h1.2.1 k hk), ?_⟩
  intro k ha hb
  obtain ⟨k1, ha1, hb1, e1⟩ := h2.2.2 k ha hb
  obtain ⟨k2, ha2, hb2, e2⟩ := h1.2.2 k1 ha1 hb1
  exact ⟨k2, ha2, hb2, e1.trans e2⟩

theorem RangeStep.mono {d d' : List α} {a b a0 b0 : Nat}
    (h : RangeStep d d' a b) (ha : a0 ≤ a) (hb : b ≤ b0) : RangeStep d d' a0 b0 := by
  refine ⟨h.1, fun k hk => h.2.1 k (by omega), ?_⟩
  intro k hk1 hk2
  by_cases hin : a ≤ k ∧ k < b
  · obtain ⟨k', h1, h2, e⟩ := h.2.2 k hin.1 hin.2
    exact ⟨k', by omega, by omega, e⟩
  · exact ⟨k, hk1, hk2, h.2.1 k (by omega)⟩

theorem RangeStep_Swap (d : List α) (a b p q : Nat) (hb : b ≤ d.length)
    (hp1 : a ≤ p) (hp2 : p < b) (hq1 : a ≤ q) (hq2 : q < b) :
    RangeStep d (Swap d p q) a b := by
  refine ⟨Swap_length d p q, ?_, ?_⟩
  · intro k hk
    rw [getElem?_Swap d p q k (by omega) (by omega)]
    unfold transpose
    rw [if_neg (by omega), if_neg (by omega)]
  · intro k hk1 hk2
    refine ⟨transpose p q k, ?_, ?_, getElem?_Swap d p q k (by omega) (by omega)⟩
    · unfold transpose
      split
      · exact hq1
      · split
        · exact hp1
        · exact hk1
    · unfold transpose
      split
      · exact hq2
      · split
        · exact hp2
        · exact hk2

/-- A property of the elements at two positions carries over along a
`RangeStep` when the first position is in the range and the second outside. -/
theorem RangeStep.Less_in_out (less : α → α → Bool) {d d' : List α} {a b : Nat}
    (h : RangeStep d d' a b) (v : Bool) (o : Nat) (ho : o < a ∨ b ≤ o)
    (hall : ∀ k, a ≤ k → k < b → Less less d k o = v) (k : Nat) (hk1 : a ≤ k) (hk2 : k < b) :
    Less less d' k o = v := by
  obtain ⟨k', h1, h2, e⟩ := h.2.2 k hk1 hk2
  rw [Less_congr less d d' k o k' o e (h.2.1 o ho)]
  exact hall k' h1 h2

theorem RangeStep.Less_out_in (less : α → α → Bool) {d d' : List α} {a b : Nat}
    (h : RangeStep d d' a b) (v : Bool) (o : Nat) (ho : o < a ∨ b ≤ o)
    (hall : ∀ k, a ≤ k → k < b → Less less d o k = v) (k : Nat) (hk1 : a ≤ k) (hk2 : k < b) :
    Less less d' o k = v := by
  obtain ⟨k', h1, h2, e⟩ := h.2.2 k hk1 hk2
  rw [Less_congr less d d' o k o k' (h.2.1 o ho) e]
  exact hall k' h1 h2

/-- Sortedness of a range that a `RangeStep` does not touch carries over. -/
theorem RangeStep.SortedOn_outside (less : α → α → Bool) {d d' : List α} {a b a0 b0 : Nat}
    (h : RangeStep d d' a b) (hs : SortedOn less d a0 b0) (hd : b0 ≤ a ∨ b ≤ a0) :
    SortedOn less d' a0 b0 := by
  intro i j hi hij hj
  rw [Less_congr less d d' j i j i (h.2.1 j (by omega)) (h.2.1 i (by omega))]
  exact hs i j hi hij hj

end RangeFacts

section InsertionFacts
variable {α : Type}

theorem insertionInner_spec (less : α → α → Bool) (hw : StrictWeak less) (a i : Nat)
    (j : Nat) (d : List α) (haj : a ≤ j) (hji : j ≤ i) (hi : i < d.length)
    (h1 : ∀ p q, a ≤ p → p < q → q ≤ i → p ≠ j → q ≠ j → Less less d q p = false)
    (h2 : ∀ q, j < q → q ≤ i → Less less d q j = false) :
    SortedOn less (insertionInner less a j d) a (i + 1) ∧
      RangeStep d (insertionInner less a j d) a (i + 1) := by
  induction j generalizing d with
  | zero =>
    refine ⟨?_, RangeStep.refl _ _ _⟩
    intro p q hp hpq hq
    by_cases hp0 : p = 0
    · subst hp0
      exact h2 q hpq (by omega)
    · exact h1 p q hp hpq (by omega) hp0 (by omega)
  | succ j ih =>
    unfold insertionInner
    split
    · next hc =>
      have hl : Less less d (j + 1) j = true := hc.2
      have hsw : ∀ x y, Less less (Swap d (j + 1) j) x y =
          Less less d (transpose (j + 1) j x) (transpose (j + 1) j y) :=
        fun x y => Less_Swap less d (j + 1) j x y (by omega) (by omega)
      have hlen : (Swap d (j + 1) j).length = d.length := Swap_length _ _ _
      obtain ⟨s1, s2⟩ := ih (Swap d (j + 1) j) (by omega) (by omega) (by omega)
        (by
          intro p q hp hpq hq hpj hqj
          rw [hsw]
          unfold transpose
          by_cases e1 : q = j + 1
          · rw [if_pos e1, if_neg (by omega), if_neg (by omega)]
            exact h1 p j hp (by omega) (by omega) (by omega) (by omega)
          · by_cases e2 : p = j + 1
            · rw [if_neg e1, if_neg (by omega), if_pos e2]
              exact h1 j q (by omega) (by omega) hq (by omega) (by omega)
            · rw [if_neg e1, if_neg (by omega), if_neg e2, if_neg (by omega)]
              exact h1 p q hp hpq hq (by omega) (by omega))
        (by
          intro q hq1 hq2
          rw [hsw]
          unfold transpose
          by_cases e1 : q = j + 1
          · rw [if_pos e1, if_neg (by omega), if_pos rfl]
            exact Less_asymm less hw d _ _ hl
          · rw [if_neg e1, if_neg (by omega), if_neg (by omega), if_pos rfl]
            exact h2 q (by omega) hq2)
      exact ⟨s1, (RangeStep_Swap d a (i + 1) (j + 1) j (by omega) (by omega) (by omega)
        (by omega) (by omega)).trans s2⟩
    · next hc =>
      refine ⟨?_, RangeStep.refl _ _ _⟩
      intro p q hp hpq hq
      by_cases e1 : p = j + 1
      · subst e1
        exact h2 q hpq (by omega)
      · by_cases e2 : q = j + 1
        · subst e2
          have hnl : Less less d (j + 1) j = false := by
            by_contra hx
            exact hc ⟨by omega, by simpa using hx⟩
          by_cases e3 : p = j
          · subst e3
            exact hnl
          · have := h1 p j hp (by omega) (by omega) e1 (by omega)
            exact Less_negTrans less hw d (j + 1) j p (by omega) hnl this
        · exact h1 p q hp hpq (by omega) e1 e2

theorem insertionLoop_spec (less : α → α → Bool) (hw : StrictWeak less) (a n s : Nat)
    (d : List α) (has : a < s) (hlen : s + n ≤ d.length) (hs : SortedOn less d a s) :
    SortedOn less ((List.range' s n).foldl (fun d i => insertionInner less a i d) d) a (s + n) ∧
      RangeStep d ((List.range' s n).foldl (fun d i => insertionInner less a i d) d)
        a (s + n) := by
  induction n generalizing s d with
  | zero => exact ⟨hs, RangeStep.refl _ _ _⟩
  | succ n ih =>
    rw [List.range'_succ, List.foldl_cons]
    obtain ⟨s1, r1⟩ := insertionInner_spec less hw a s s d (by omega) (Nat.le_refl s) (by omega)
      (fun p q hp hpq hq _ hqs => hs p q hp hpq (by omega))
      (fun q h1 h2 => by omega)
    obtain ⟨s2, r2⟩ := ih (s + 1) (insertionInner less a s d) (by omega)
      (by rw [r1.1]; omega) s1
    have e : s + 1 + n = s + (n + 1) := by omega
    rw [e] at s2 r2
    exact ⟨s2, (r1.mono (Nat.le_refl a) (by omega)).trans r2⟩

theorem insertionSort_func_spec (less : α → α → Bool) (hw : StrictWeak less) (d : List α)
    (a b : Nat) (hb : b ≤ d.length) :
    SortedOn less (insertionSort_func less d a b) a b ∧
      RangeStep d (insertionSort_func less d a b) a b := by
  unfold insertionSort_func
  by_cases hab : a + 1 ≤ b
  · obtain ⟨s, r⟩ := insertionLoop_spec less hw a (b - (a + 1)) (a + 1) d (by omega) (by omega)
      (fun i j hi hij hj => by omega)
    have e : a + 1 + (b - (a + 1)) = b := by omega
    rw [e] at s r
    exact ⟨s, r⟩
  · have e : b - (a + 1) = 0 := by omega
    rw [e]
    exact ⟨fun i j hi hij hj => by omega, RangeStep.refl _ _ _⟩

end InsertionFacts

section PartitionFacts
variable {α : Type}

theorem scanUp_spec (p : Nat → Bool) (j n i : Nat) (hn : j + 1 - i ≤ n) :
    (∀ k, i ≤ k → k < scanUp p j n i → p k = true) ∧
      (j < scanUp p j n i ∨ p (scanUp p j n i) = false) ∧
      i ≤ scanUp p j n i ∧ (scanUp p j n i ≤ j + 1 ∨ scanUp p j n i = i) := by
  induction n generalizing i with
  | zero =>
    unfold scanUp
    exact ⟨fun k h1 h2 => by omega, Or.inl (by omega), Nat.le_refl _, Or.inr rfl⟩
  | succ n ih =>
    unfold scanUp
    split
    · next hc =>
      obtain ⟨h1, h2, h3, h4⟩ := ih (i + 1) (by omega)
      refine ⟨?_, h2, by omega, Or.inl (by omega)⟩
      intro k hk1 hk2
      by_cases e : k = i
      · rw [e]; exact hc.2
      · exact h1 k (by omega) hk2
    · next hc =>
      refine ⟨fun k h1 h2 => by omega, ?_, Nat.le_refl _, Or.inr rfl⟩
      by_cases hij : i ≤ j
      · right
        by_contra hx
        exact hc ⟨hij, by simpa using hx⟩
      · left; omega

theorem scanDown_spec (p : Nat → Bool) (i j : Nat) (hi : 1 ≤ i) :
    (∀ k, scanDown p i j < k → k ≤ j → p k = true) ∧
      (scanDown p i j < i ∨ p (scanDown p i j) = false) ∧
      scanDown p i j ≤ j ∧ (i ≤ scanDown p i j + 1 ∨ scanDown p i j = j) := by
  induction j with
  | zero =>
    unfold scanDown
    exact ⟨fun k h1 h2 => by omega, Or.inl (by omega), Nat.le_refl _, Or.inr rfl⟩
  | succ j ih =>
    unfold scanDown
    split
    · next hc =>
      obtain ⟨h1, h2, h3, h4⟩ := ih
      refine ⟨?_, h2, by omega, Or.inl (by omega)⟩
      intro k hk1 hk2
      by_cases e : k = j + 1
      · rw [e]; exact hc.2
      · exact h1 k hk1 (by omega)
    · next hc =>
      refine ⟨fun k h1 h2 => by omega, ?_, Nat.le_refl _, Or.inr rfl⟩
      by_cases hij : i ≤ j + 1
      · right
        by_contra hx
        exact hc ⟨hij, by simpa using hx⟩
      · left; omega

/-- The main loop of `partition_func`: from a state in which everything in
`(a, i)` is less than the pivot at `a` and nothing in `(j, b)` is, it ends with
that split at the returned index. -/
theorem partitionLoop_spec (less : α → α → Bool) (a b n : Nat)
    (d : List α) (i j : Nat) (d' : List α) (r : Nat)
    (hb : b ≤ d.length) (hi : a + 2 ≤ i) (hij : i ≤ j + 2) (hjb : j < b)
    (h1 : ∀ k, a < k → k < i → Less less d k a = true)
    (h2 : ∀ k, j < k → k < b → Less less d k a = false)
    (h : partitionLoop less a n d i j = some (d', r)) :
    RangeStep d d' (a + 1) b ∧ a ≤ r ∧ r < b ∧
      (∀ k, a < k → k ≤ r → Less less d' k a = true) ∧
      (∀ k, r < k → k < b → Less less d' k a = false) := by
  induction n generalizing d i j with
  | zero => simp [partitionLoop] at h
  | succ n ih =>
    unfold partitionLoop at h
    simp only at h
    obtain ⟨u1, u2, u3, u4⟩ := scanUp_spec (fun i => Less less d i a) j (j + 1 - i) i
      (Nat.le_refl _)
    generalize scanUp (fun i => Less less d i a) j (j + 1 - i) i = i' at h u1 u2 u3 u4
    obtain ⟨v1, v2, v3, v4⟩ := scanDown_spec (fun j => ! Less less d j a) i' j (by omega)
    generalize scanDown (fun j => ! Less less d j a) i' j = j' at h v1 v2 v3 v4
    have p1 : ∀ k, a < k → k < i' → Less less d k a = true := by
      intro k hk1 hk2
      by_cases e : k < i
      · exact h1 k hk1 e
      · exact u1 k (by omega) hk2
    have p2 : ∀ k, j' < k → k < b → Less less d k a = false := by
      intro k hk1 hk2
      by_cases e : j < k
      · exact h2 k e hk2
      · simpa using v1 k hk1 (by omega)
    split at h
    · next hgt =>
      simp at h
      obtain ⟨e1, e2⟩ := h
      subst e1 e2
      exact ⟨RangeStep.refl _ _ _, by omega, by omega,
        fun k hk1 hk2 => p1 k hk1 (by omega), p2⟩
    · next hgt =>
      have hle : i' ≤ j' := by omega
      have q1 : Less less d i' a = false := by
        rcases u2 with u | u
        · omega
        · exact u
      have q2 : Less less d j' a = true := by
        rcases v2 with v | v
        · omega
        · simpa using v
      have hne : i' ≠ j' := by
        intro e
        rw [e, q2] at q1
        exact Bool.noConfusion q1
      have hsw : ∀ x y, Less less (Swap d i' j') x y =
          Less less d (transpose i' j' x) (transpose i' j' y) :=
        fun x y => Less_Swap less d i' j' x y (by omega) (by omega)
      obtain ⟨r1, r2, r3, r4, r5⟩ := ih (Swap d i' j') (i' + 1) (j' - 1)
        (by rw [Swap_length]; exact hb) (by omega) (by omega) (by omega)
        (by
          intro k hk1 hk2
          rw [hsw]
          unfold transpose
          by_cases e : k = i'
          · rw [if_pos e, if_neg (by omega), if_neg (by omega)]
            exact q2
          · rw [if_neg e, if_neg (by omega), if_neg (by omega), if_neg (by omega)]
            exact p1 k hk1 (by omega))
        (by
          intro k hk1 hk2
          rw [hsw]
          unfold transpose
          by_cases e : k = j'
          · rw [if_neg (by omega), if_pos e, if_neg (by omega), if_neg (by omega)]
            exact q1
          · rw [if_neg (by omega), if_neg e, if_neg (by omega), if_neg (by omega)]
            exact p2 k (by omega) hk2)
        h
      exact ⟨(RangeStep_Swap d (a + 1) b i' j' hb (by omega) (by omega) (by omega)
        (by omega)).trans r1, r2, r3, r4, r5⟩

/-- What `partition_func` achieves: the pivot ends at `mid`, everything before
it in the range is less than it and nothing after it is. -/
theorem partition_func_spec (less : α → α → Bool) (d : List α)
    (a b pivot : Nat) (d' : List α) (mid : Nat) (ap : Bool)
    (hb : b ≤ d.length) (hab : a + 2 ≤ b) (hp1 : a ≤ pivot) (hp2 : pivot < b)
    (h : partition_func less d a b pivot = some (d', mid, ap)) :
    RangeStep d d' a b ∧ a ≤ mid ∧ mid < b ∧
      (∀ k, a ≤ k → k < mid → Less less d' k mid = true) ∧
      (∀ k, mid < k → k < b → Less less d' k mid = false) := by
  unfold partition_func at h
  simp only at h
  have r0 : RangeStep d (Swap d a pivot) a b :=
    RangeStep_Swap d a b a pivot hb (Nat.le_refl a) (by omega) hp1 hp2
  have hb0 : b ≤ (Swap d a pivot).length := by rw [Swap_length]; exact hb
  generalize Swap d a pivot = d0 at h r0 hb0
  -- the final exchange of the pivot with position `r`
  have fin : ∀ (d2 : List α) (r : Nat), b ≤ d2.length → a ≤ r → r < b →
      (∀ k, a < k → k ≤ r → Less less d2 k a = true) →
      (∀ k, r < k → k < b → Less less d2 k a = false) →
      RangeStep d2 (Swap d2 r a) a b ∧
        (∀ k, a ≤ k → k < r → Less less (Swap d2 r a) k r = true) ∧
        (∀ k, r < k → k < b → Less less (Swap d2 r a) k r = false) := by
    intro d2 r hb2 hr1 hr2 f1 f2
    have hsw : ∀ x y, Less less (Swap d2 r a) x y =
        Less less d2 (transpose r a x) (transpose r a y) :=
      fun x y => Less_Swap less d2 r a x y (by omega) (by omega)
    refine ⟨RangeStep_Swap d2 a b r a hb2 hr1 hr2 (Nat.le_refl a) (by omega), ?_, ?_⟩
    · intro k hk1 hk2
      rw [hsw]
      unfold transpose
      by_cases e : k = a
      · rw [if_neg (by omega), if_pos e, if_pos rfl]
        exact f1 r (by omega) (Nat.le_refl r)
      · rw [if_neg (by omega), if_neg e, if_pos rfl]
        exact f1 k (by omega) (by omega)
    · intro k hk1 hk2
      rw [hsw]
      unfold transpose
      rw [if_neg (by omega), if_neg (by omega), if_pos rfl]
      exact f2 k hk1 hk2
  obtain ⟨u1, u2, u3, u4⟩ := scanUp_spec (fun i => Less less d0 i a) (b - 1)
    (b - 1 + 1 - (a + 1)) (a + 1) (Nat.le_refl _)
  generalize scanUp (fun i => Less less d0 i a) (b - 1) (b - 1 + 1 - (a + 1)) (a + 1) = i'
    at h u1 u2 u3 u4
  obtain ⟨v1, v2, v3, v4⟩ := scanDown_spec (fun j => ! Less less d0 j a) i' (b - 1) (by omega)
  generalize scanDown (fun j => ! Less less d0 j a) i' (b - 1) = j' at h v1 v2 v3 v4
  have p1 : ∀ k, a < k → k < i' → Less less d0 k a = true :=
    fun k hk1 hk2 => u1 k (by omega) hk2
  have p2 : ∀ k, j' < k → k < b → Less less d0 k a = false := by
    intro k hk1 hk2
    simpa using v1 k hk1 (by omega)
  split at h
  · next hgt =>
    simp at h
    obtain ⟨e1, e2, _⟩ := h
    subst e1 e2
    obtain ⟨f1, f2, f3⟩ := fin d0 j' hb0 (by omega) (by omega)
      (fun k hk1 hk2 => p1 k hk1 (by omega)) p2
    exact ⟨r0.trans f1, by omega, by omega, f2, f3⟩
  · next hgt =>
    have hle : i' ≤ j' := by omega
    have q1 : Less less d0 i' a = false := by
      rcases u2 with u | u
      · omega
      · exact u
    have q2 : Less less d0 j' a = true := by
      rcases v2 with v | v
      · omega
      · simpa using v
    have hne : i' ≠ j' := by
      intro e
      rw [e, q2] at q1
      exact Bool.noConfusion q1
    have hsw : ∀ x y, Less less (Swap d0 i' j') x y =
        Less less d0 (transpose i' j' x) (transpose i' j' y) :=
      fun x y => Less_Swap less d0 i' j' x y (by omega) (by omega)
    split at h
    · simp at h
    · next d2 r hloop =>
      simp at h
      obtain ⟨e1, e2, _⟩ := h
      subst e1 e2
      obtain ⟨r1, r2, r3, r4, r5⟩ := partitionLoop_spec less a b (b - a + 1)
        (Swap d0 i' j') (i' + 1) (j' - 1) d2 r
        (by rw [Swap_length]; exact hb0) (by omega) (by omega) (by omega)
        (by
          intro k hk1 hk2
          rw [hsw]
          unfold transpose
          by_cases e : k = i'
          · rw [if_pos e, if_neg (by omega), if_neg (by omega)]
            exact q2
          · rw [if_neg e, if_neg (by omega), if_neg (by omega), if_neg (by omega)]
            exact p1 k hk1 (by omega))
        (by
          intro k hk1 hk2
          rw [hsw]
          unfold transpose
          by_cases e : k = j'
          · rw [if_neg (by omega), if_pos e, if_neg (by omega), if_neg (by omega)]
            exact q1
          · rw [if_neg (by omega), if_neg e, if_neg (by omega), if_neg (by omega)]
            exact p2 k (by omega) hk2)
        hloop
      have rs : RangeStep d0 d2 a b :=
        ((RangeStep_Swap d0 (a + 1) b i' j' hb0 (by omega) (by omega) (by omega)
          (by omega)).trans r1).mono (by omega) (Nat.le_refl b)
      obtain ⟨f1, f2, f3⟩ := fin d2 r (by rw [rs.1]; exact hb0) r2 r3 r4 r5
      exact ⟨r0.trans (rs.trans f1), r2, r3, f2, f3⟩

end PartitionFacts

section PartitionEqualFacts
variable {α : Type}

/-- The loop of `partitionEqual_func`: from a state in which the pivot at `a` is
not less than anything in `(a, i)` and less than everything in `(j, b)`, it ends
with that split at the returned index. -/
theorem partitionEqualLoop_spec (less : α → α → Bool) (a b n : Nat)
    (d : List α) (i j : Nat) (d' : List α) (r : Nat)
    (hb : b ≤ d.length) (hi : a + 1 ≤ i) (hib : i ≤ b) (hjb : j < b)
    (h1 : ∀ k, a < k → k < i → Less less d a k = false)
    (h2 : ∀ k, j < k → k < b → Less less d a k = true)
    (h : partitionEqualLoop less a n d i j = some (d', r)) :
    RangeStep d d' (a + 1) b ∧ a < r ∧ r ≤ b ∧
      (∀ k, a < k → k < r → Less less d' a k = false) ∧
      (∀ k, r ≤ k → k < b → Less less d' a k = true) := by
  induction n generalizing d i j with
  | zero => simp [partitionEqualLoop] at h
  | succ n ih =>
    unfold partitionEqualLoop at h
    simp only at h
    obtain ⟨u1, u2, u3, u4⟩ := scanUp_spec (fun i => ! Less less d a i) j (j + 1 - i) i
      (Nat.le_refl _)
    generalize scanUp (fun i => ! Less less d a i) j (j + 1 - i) i = i' at h u1 u2 u3 u4
    obtain ⟨v1, v2, v3, v4⟩ := scanDown_spec (fun j => Less less d a j) i' j (by omega)
    generalize scanDown (fun j => Less less d a j) i' j = j' at h v1 v2 v3 v4
    have p1 : ∀ k, a < k → k < i' → Less less d a k = false := by
      intro k hk1 hk2
      by_cases e : k < i
      · exact h1 k hk1 e
      · simpa using u1 k (by omega) hk2
    have p2 : ∀ k, j' < k → k < b → Less less d a k = true := by
      intro k hk1 hk2
      by_cases e : j < k
      · exact h2 k e hk2
      · exact v1 k hk1 (by omega)
    split at h
    · next hgt =>
      simp at h
      obtain ⟨e1, e2⟩ := h
      subst e1 e2
      exact ⟨RangeStep.refl _ _ _, by omega, by omega, p1,
        fun k hk1 hk2 => p2 k (by omega) hk2⟩
    · next hgt =>
      have hle : i' ≤ j' := by omega
      have q1 : Less less d a i' = true := by
        rcases u2 with u | u
        · omega
        · simpa using u
      have q2 : Less less d a j' = false := by
        rcases v2 with v | v
        · omega
        · exact v
      have hne : i' ≠ j' := by
        intro e
        rw [e, q2] at q1
        exact Bool.noConfusion q1
      have hsw : ∀ x y, Less less (Swap d i' j') x y =
          Less less d (transpose i' j' x) (transpose i' j' y) :=
        fun x y => Less_Swap less d i' j' x y (by omega) (by omega)
      obtain ⟨r1, r2, r3, r4, r5⟩ := ih (Swap d i' j') (i' + 1) (j' - 1)
        (by rw [Swap_length]; exact hb) (by omega) (by omega) (by omega)
        (by
          intro k hk1 hk2
          rw [hsw]
          unfold transpose
          by_cases e : k = i'
          · rw [if_neg (by omega), if_neg (by omega), if_pos e]
            exact q2
          · rw [if_neg (by omega), if_neg (by omega), if_neg e, if_neg (by omega)]
            exact p1 k hk1 (by omega))
        (by
          intro k hk1 hk2
          rw [hsw]
          unfold transpose
          by_cases e : k = j'
          · rw [if_neg (by omega), if_neg (by omega), if_neg (by omega), if_pos e]
            exact q1
          · rw [if_neg (by omega), if_neg (by omega), if_neg (by omega), if_neg e]
            exact p2 k (by omega) hk2)
        h
      exact ⟨(RangeStep_Swap d (a + 1) b i' j' hb (by omega) (by omega) (by omega)
        (by omega)).trans r1, r2, r3, r4, r5⟩

/-- What `partitionEqual_func` achieves: the pivot sits at `a`, it is not less
than anything in `(a, mid)` and less than everything in `[mid, b)`. -/
theorem partitionEqual_func_spec (less : α → α → Bool) (d : List α)
    (a b pivot : Nat) (d' : List α) (mid : Nat)
    (hb : b ≤ d.length) (hab : a + 2 ≤ b) (hp1 : a ≤ pivot) (hp2 : pivot < b)
    (h : partitionEqual_func less d a b pivot = some (d', mid)) :
    RangeStep d d' a b ∧ a < mid ∧ mid ≤ b ∧ d'[a]? = d[pivot]? ∧
      (∀ k, a < k → k < mid → Less less d' a k = false) ∧
      (∀ k, mid ≤ k → k < b → Less less d' a k = true) := by
  unfold partitionEqual_func at h
  simp only at h
  have r0 : RangeStep d (Swap d a pivot) a b :=
    RangeStep_Swap d a b a pivot hb (Nat.le_refl a) (by omega) hp1 hp2
  have e0 : (Swap d a pivot)[a]? = d[pivot]? := by
    rw [getElem?_Swap d a pivot a (by omega) (by omega)]
    unfold transpose
    rw [if_pos rfl]
  have hb0 : b ≤ (Swap d a pivot).length := by rw [Swap_length]; exact hb
  generalize Swap d a pivot = d0 at h r0 hb0 e0
  obtain ⟨r1, r2, r3, r4, r5⟩ := partitionEqualLoop_spec less a b (b - a + 1) d0 (a + 1)
    (b - 1) d' mid hb0 (Nat.le_refl _) (by omega) (by omega)
    (fun k hk1 hk2 => by omega) (fun k hk1 hk2 => by omega) h
  exact ⟨r0.trans (r1.mono (by omega) (Nat.le_refl b)), r2, r3,
    (r1.2.1 a (by omega)).trans e0, r4, r5⟩

end PartitionEqualFacts

section PartialInsertionFacts
variable {α : Type}

theorem LeftBound.step (less : α → α → Bool) {d d' : List α} {a b : Nat}
    (h : RangeStep d d' a b) (hl : LeftBound less d a b) : LeftBound less d' a b := by
  rcases hl with h0 | hl
  · exact Or.inl h0
  · by_cases ha : a = 0
    · exact Or.inl ha
    · exact Or.inr (h.Less_in_out less false (a - 1) (by omega) hl)

theorem shiftLeft_eq_insertionInner (less : α → α → Bool) (a b j : Nat) (d : List α)
    (hb : b ≤ d.length) (haj : a ≤ j) (hjb : j < b) (hl : LeftBound less d a b) :
    shiftLeft less j d = insertionInner less a j d := by
  induction j generalizing d with
  | zero => rfl
  | succ j ih =>
    unfold shiftLeft insertionInner
    by_cases e : a = j + 1
    · have hf : Less less d (j + 1) j = false := by
        rcases hl with h0 | hl
        · omega
        · have := hl a (Nat.le_refl a) (by omega)
          rw [e] at this
          exact this
      rw [if_pos (by simp [hf]), if_neg (by omega)]
    · by_cases hc : Less less d (j + 1) j = true
      · rw [if_neg (by simp [hc]), if_pos ⟨by omega, hc⟩]
        exact ih (Swap d (j + 1) j) (by rw [Swap_length]; exact hb) (by omega) (by omega)
          (LeftBound.step less (RangeStep_Swap d a b (j + 1) j hb (by omega) (by omega)
            (by omega) (by omega)) hl)
      · rw [if_pos hc, if_neg (fun h => hc h.2)]

theorem SortedOn_extend (less : α → α → Bool) (hw : StrictWeak less) (d : List α)
    (a i n : Nat) (hai : a < i) (hlen : i + n ≤ d.length) (hs : SortedOn less d a i)
    (hadj : ∀ k, i ≤ k → k < i + n → Less less d k (k - 1) = false) :
    SortedOn less d a (i + n) := by
  induction n with
  | zero => exact hs
  | succ n ih =>
    have hprev := ih (by omega) (fun k h1 h2 => hadj k h1 (by omega))
    intro p q hp hpq hq
    by_cases e : q = i + n
    · have hl := hadj (i + n) (by omega) (by omega)
      by_cases e2 : p = i + n - 1
      · rw [e, e2]; exact hl
      · have := hprev p (i + n - 1) hp (by omega) (by omega)
        rw [e]
        exact Less_negTrans less hw d (i + n) (i + n - 1) p (by omega) hl this
    · exact hprev p q hp hpq (by omega)

theorem shiftRight_range (less : α → α → Bool) (b i0 n j : Nat) (d : List α)
    (hb : b ≤ d.length) (hj : i0 + 1 ≤ j) :
    RangeStep d (shiftRight less b n j d) i0 b := by
  induction n generalizing j d with
  | zero => exact RangeStep.refl _ _ _
  | succ n ih =>
    unfold shiftRight
    split
    · next hjb =>
      split
      · exact RangeStep.refl _ _ _
      · exact (RangeStep_Swap d i0 b j (j - 1) hb (by omega) hjb (by omega) (by omega)).trans
          (ih (j + 1) (Swap d j (j - 1)) (by rw [Swap_length]; exact hb) (by omega))
    · exact RangeStep.refl _ _ _

theorem partialInsertionSortLoop_spec (less : α → α → Bool) (hw : StrictWeak less)
    (a b steps : Nat) (d : List α) (i : Nat)
    (hb : b ≤ d.length) (hai : a + 1 ≤ i) (hib : i ≤ b) (hs : SortedOn less d a i)
    (hl : LeftBound less d a b) :
    RangeStep d (partialInsertionSortLoop less a b steps d i).1 a b ∧
      ((partialInsertionSortLoop less a b steps d i).2 = true →
        SortedOn less (partialInsertionSortLoop less a b steps d i).1 a b) := by
  induction steps generalizing d i with
  | zero =>
    exact ⟨RangeStep.refl _ _ _, fun h => by simp [partialInsertionSortLoop] at h⟩
  | succ steps ih =>
    unfold partialInsertionSortLoop
    simp only
    obtain ⟨u1, u2, u3, u4⟩ := scanUp_spec (fun i => ! Less less d i (i - 1)) (b - 1) (b - i) i
      (by omega)
    generalize scanUp (fun i => ! Less less d i (i - 1)) (b - 1) (b - i) i = i' at u1 u2 u3 u4
    have hi'b : i' ≤ b := by omega
    have hs' : SortedOn less d a i' := by
      have := SortedOn_extend less hw d a i (i' - i) (by omega) (by omega) hs
        (fun k h1 h2 => by simpa using u1 k h1 (by omega))
      rwa [show i + (i' - i) = i' by omega] at this
    split
    · next e =>
      subst e
      exact ⟨RangeStep.refl _ _ _, fun _ => hs'⟩
    · next hne =>
      split
      · exact ⟨RangeStep.refl _ _ _, fun h => by simp at h⟩
      · have hlt : i' < b := by omega
        have r1 : RangeStep d (Swap d i' (i' - 1)) a b :=
          RangeStep_Swap d a b i' (i' - 1) hb (by omega) hlt (by omega) (by omega)
        have hb1 : b ≤ (Swap d i' (i' - 1)).length := by rw [Swap_length]; exact hb
        have hsw : ∀ x y, Less less (Swap d i' (i' - 1)) x y =
            Less less d (transpose i' (i' - 1) x) (transpose i' (i' - 1) y) :=
          fun x y => Less_Swap less d i' (i' - 1) x y (by omega) (by omega)
        have hl1 := LeftBound.step less r1 hl
        generalize hd1 : Swap d i' (i' - 1) = d1 at r1 hb1 hl1 hsw
        -- the element moved to `i' - 1` is shifted into the sorted prefix
        have step2 : ∃ d2, (if i' - a ≥ 2 then shiftLeft less (i' - 1) d1 else d1) = d2 ∧
            RangeStep d1 d2 a b ∧ SortedOn less d2 a i' := by
          refine ⟨_, rfl, ?_⟩
          split
          · next h2 =>
            rw [shiftLeft_eq_insertionInner less a b (i' - 1) d1 hb1 (by omega) (by omega) hl1]
            obtain ⟨s, r⟩ := insertionInner_spec less hw a (i' - 1) (i' - 1) d1 (by omega)
              (Nat.le_refl _) (by omega)
              (by
                intro p q hp hpq hq hpj hqj
                rw [hsw]
                unfold transpose
                rw [if_neg (by omega), if_neg (by omega), if_neg (by omega), if_neg (by omega)]
                exact hs' p q hp hpq (by omega))
              (fun q h1 h2 => by omega)
            rw [show i' - 1 + 1 = i' by omega] at s r
            exact ⟨r.mono (Nat.le_refl a) hi'b, s⟩
          · next h2 =>
            exact ⟨RangeStep.refl _ _ _, fun p q hp hpq hq => by omega⟩
        obtain ⟨d2, e2, r2, s2⟩ := step2
        rw [e2]
        have hb2 : b ≤ d2.length := by rw [r2.1]; exact hb1
        have step3 : ∃ d3,
            (if b - i' ≥ 2 then shiftRight less b (b - (i' + 1)) (i' + 1) d2 else d2) = d3 ∧
            RangeStep d2 d3 i' b := by
          refine ⟨_, rfl, ?_⟩
          split
          · exact shiftRight_range less b i' _ _ d2 hb2 (Nat.le_refl _)
          · exact RangeStep.refl _ _ _
        obtain ⟨d3, e3, r3⟩ := step3
        rw [e3]
        have r3' : RangeStep d2 d3 a b := r3.mono (by omega) (Nat.le_refl b)
        have r13 : RangeStep d d3 a b := r1.trans (r2.trans r3')
        obtain ⟨r4, s4⟩ := ih d3 i' (by rw [r13.1]; exact hb) (by omega) hi'b
          (r3.SortedOn_outside less s2 (Or.inl (Nat.le_refl _)))
          (LeftBound.step less r13 hl)
        exact ⟨r13.trans r4, s4⟩

theorem partialInsertionSort_func_spec (less : α → α → Bool) (hw : StrictWeak less)
    (d : List α) (a b : Nat) (hb : b ≤ d.length) (hab : a < b)
    (hl : LeftBound less d a b) :
    RangeStep d (partialInsertionSort_func less d a b).1 a b ∧
      ((partialInsertionSort_func less d a b).2 = true →
        SortedOn less (partialInsertionSort_func less d a b).1 a b) :=
  partialInsertionSortLoop_spec less hw a b 5 d (a + 1) hb (Nat.le_refl _) (by omega)
    (fun p q hp hpq hq => by omega) hl

end PartialInsertionFacts

section PrepareFacts
variable {α : Type}

theorem bitsLenAux_zero (n : Nat) : bitsLenAux n 0 = 0 := by
  cases n <;> simp [bitsLenAux]

theorem two_pow_bitsLenAux_le (n x : Nat) (hx : x ≤ n) (h0 : 0 < x) :
    2 ^ bitsLenAux n x ≤ 2 * x := by
  induction n generalizing x with
  | zero => omega
  | succ n ih =>
    unfold bitsLenAux
    rw [if_neg (by omega), Nat.pow_succ]
    by_cases e : x / 2 = 0
    · rw [e, bitsLenAux_zero]
      omega
    · have := ih (x / 2) (by omega) (by omega)
      omega

theorem nextPowerOfTwo_le (l : Nat) (h : 0 < l) : nextPowerOfTwo l ≤ 2 * l := by
  unfold nextPowerOfTwo bitsLen
  rw [Nat.one_shiftLeft]
  exact two_pow_bitsLenAux_le l l (Nat.le_refl l) h

theorem breakPatterns_func_range (d : List α) (a b : Nat) (hb : b ≤ d.length) :
    RangeStep d (breakPatterns_func d a b) a b := by
  unfold breakPatterns_func
  simp only
  split
  · next h8 =>
    have hm := nextPowerOfTwo_le (b - a) (by omega)
    have hother : ∀ r : Nat,
        (if (r &&& (nextPowerOfTwo (b - a) - 1)) ≥ b - a then
          (r &&& (nextPowerOfTwo (b - a) - 1)) - (b - a)
        else (r &&& (nextPowerOfTwo (b - a) - 1))) < b - a := by
      intro r
      have := @Nat.and_le_right r (nextPowerOfTwo (b - a) - 1)
      split <;> omega
    have q : 2 ≤ (b - a) / 4 := by omega
    have o1 := hother (xorshiftNext (b - a))
    have o2 := hother (xorshiftNext (xorshiftNext (b - a)))
    have o3 := hother (xorshiftNext (xorshiftNext (xorshiftNext (b - a))))
    generalize (if (xorshiftNext (b - a) &&& (nextPowerOfTwo (b - a) - 1)) ≥ b - a then
          (xorshiftNext (b - a) &&& (nextPowerOfTwo (b - a) - 1)) - (b - a)
        else (xorshiftNext (b - a) &&& (nextPowerOfTwo (b - a) - 1))) = x1 at o1 ⊢
    generalize (if (xorshiftNext (xorshiftNext (b - a)) &&& (nextPowerOfTwo (b - a) - 1)) ≥
          b - a then
          (xorshiftNext (xorshiftNext (b - a)) &&& (nextPowerOfTwo (b - a) - 1)) - (b - a)
        else (xorshiftNext (xorshiftNext (b - a)) &&& (nextPowerOfTwo (b - a) - 1))) = x2
      at o2 ⊢
    generalize (if (xorshiftNext (xorshiftNext (xorshiftNext (b - a))) &&&
          (nextPowerOfTwo (b - a) - 1)) ≥ b - a then
          (xorshiftNext (xorshiftNext (xorshiftNext (b - a))) &&&
            (nextPowerOfTwo (b - a) - 1)) - (b - a)
        else (xorshiftNext (xorshiftNext (xorshiftNext (b - a))) &&&
          (nextPowerOfTwo (b - a) - 1))) = x3 at o3 ⊢
    have s1 := RangeStep_Swap d a b (a + (b - a) / 4 * 2 - 1 - 1 + 0) (a + x1) hb
      (by omega) (by omega) (Nat.le_add_right a _) (by omega)
    have hb1 := hb
    rw [← s1.1] at hb1
    have s2 := RangeStep_Swap _ a b (a + (b - a) / 4 * 2 - 1 - 1 + 1) (a + x2) hb1
      (by omega) (by omega) (Nat.le_add_right a _) (by omega)
    have hb2 := hb1
    rw [← s2.1] at hb2
    have s3 := RangeStep_Swap _ a b (a + (b - a) / 4 * 2 - 1 - 1 + 2) (a + x3) hb2
      (by omega) (by omega) (Nat.le_add_right a _) (by omega)
    exact s1.trans (s2.trans s3)
  · exact RangeStep.refl _ _ _

theorem reverseRange_loop_range (d : List α) (a b n : Nat) (hb : b ≤ d.length)
    (hn : n ≤ (b - a) / 2) :
    RangeStep d ((List.range n).foldl (fun d k => Swap d (a + k) (b - 1 - k)) d) a b := by
  induction n with
  | zero => exact RangeStep.refl _ _ _
  | succ n ih =>
    rw [List.range_succ, List.foldl_append]
    have r := ih (by omega)
    refine r.trans ?_
    simp only [List.foldl_cons, List.foldl_nil]
    exact RangeStep_Swap _ a b (a + n) (b - 1 - n) (by rw [r.1]; exact hb) (by omega) (by omega)
      (by omega) (by omega)

theorem reverseRange_func_range (d : List α) (a b : Nat) (hb : b ≤ d.length) :
    RangeStep d (reverseRange_func d a b) a b :=
  reverseRange_loop_range d a b _ hb (Nat.le_refl _)

theorem order2_func_fst (less : α → α → Bool) (d : List α) (a b s : Nat) :
    ((order2_func less d a b s).1 = a ∧ (order2_func less d a b s).2.1 = b) ∨
      ((order2_func less d a b s).1 = b ∧ (order2_func less d a b s).2.1 = a) := by
  unfold order2_func
  split
  · exact Or.inr ⟨rfl, rfl⟩
  · exact Or.inl ⟨rfl, rfl⟩

theorem median_func_fst (less : α → α → Bool) (d : List α) (a b c s : Nat) :
    (median_func less d a b c s).1 = a ∨ (median_func less d a b c s).1 = b ∨
      (median_func less d a b c s).1 = c := by
  unfold median_func
  simp only
  generalize h1 : order2_func less d a b s = o1
  have f1 := order2_func_fst less d a b s
  rw [h1] at f1
  obtain ⟨a1, b1, s1⟩ := o1
  simp only at f1 ⊢
  generalize h2 : order2_func less d b1 c s1 = o2
  have f2 := order2_func_fst less d b1 c s1
  rw [h2] at f2
  obtain ⟨b2, c2, s2⟩ := o2
  simp only at f2 ⊢
  generalize h3 : order2_func less d a1 b2 s2 = o3
  have f3 := order2_func_fst less d a1 b2 s2
  rw [h3] at f3
  obtain ⟨a3, b3, s3⟩ := o3
  simp only at f3 ⊢
  omega

theorem choosePivot_func_range (less : α → α → Bool) (d : List α) (a b : Nat)
    (h8 : 8 ≤ b - a) :
    a ≤ (choosePivot_func less d a b).1 ∧ (choosePivot_func less d a b).1 < b := by
  have q : 2 ≤ (b - a) / 4 := by omega
  have key : ∀ c : Nat × Nat, a ≤ c.1 → c.1 < b →
      a ≤ (if c.2 = 0 then (c.1, sortedHint.increasingHint)
        else if c.2 = 12 then (c.1, sortedHint.decreasingHint)
        else (c.1, sortedHint.unknownHint)).1 ∧
      (if c.2 = 0 then (c.1, sortedHint.increasingHint)
        else if c.2 = 12 then (c.1, sortedHint.decreasingHint)
        else (c.1, sortedHint.unknownHint)).1 < b := by
    intro c h1 h2
    split
    · exact ⟨h1, h2⟩
    · split <;> exact ⟨h1, h2⟩
  unfold choosePivot_func
  simp only
  apply key
  · rw [if_pos h8]
    split
    · simp only [medianAdjacent_func]
      have m1 := median_func_fst less d (a + (b - a) / 4 * 1 - 1) (a + (b - a) / 4 * 1)
        (a + (b - a) / 4 * 1 + 1) 0
      generalize median_func less d (a + (b - a) / 4 * 1 - 1) (a + (b - a) / 4 * 1)
        (a + (b - a) / 4 * 1 + 1) 0 = r1 at m1 ⊢
      have m2 := median_func_fst less d (a + (b - a) / 4 * 2 - 1) (a + (b - a) / 4 * 2)
        (a + (b - a) / 4 * 2 + 1) r1.2
      generalize median_func less d (a + (b - a) / 4 * 2 - 1) (a + (b - a) / 4 * 2)
        (a + (b - a) / 4 * 2 + 1) r1.2 = r2 at m2 ⊢
      have m3 := median_func_fst less d (a + (b - a) / 4 * 3 - 1) (a + (b - a) / 4 * 3)
        (a + (b - a) / 4 * 3 + 1) r2.2
      generalize median_func less d (a + (b - a) / 4 * 3 - 1) (a + (b - a) / 4 * 3)
        (a + (b - a) / 4 * 3 + 1) r2.2 = r3 at m3 ⊢
      have m4 := median_func_fst less d r1.1 r2.1 r3.1 r3.2
      omega
    · have m := median_func_fst less d (a + (b - a) / 4 * 1) (a + (b - a) / 4 * 2)
        (a + (b - a) / 4 * 3) 0
      omega
  · rw [if_pos h8]
    split
    · simp only [medianAdjacent_func]
      have m1 := median_func_fst less d (a + (b - a) / 4 * 1 - 1) (a + (b - a) / 4 * 1)
        (a + (b - a) / 4 * 1 + 1) 0
      generalize median_func less d (a + (b - a) / 4 * 1 - 1) (a + (b - a) / 4 * 1)
        (a + (b - a) / 4 * 1 + 1) 0 = r1 at m1 ⊢
      have m2 := median_func_fst less d (a + (b - a) / 4 * 2 - 1) (a + (b - a) / 4 * 2)
        (a + (b - a) / 4 * 2 + 1) r1.2
      generalize median_func less d (a + (b - a) / 4 * 2 - 1) (a + (b - a) / 4 * 2)
        (a + (b - a) / 4 * 2 + 1) r1.2 = r2 at m2 ⊢
      have m3 := median_func_fst less d (a + (b - a) / 4 * 3 - 1) (a + (b - a) / 4 * 3)
        (a + (b - a) / 4 * 3 + 1) r2.2
      generalize median_func less d (a + (b - a) / 4 * 3 - 1) (a + (b - a) / 4 * 3)
        (a + (b - a) / 4 * 3 + 1) r2.2 = r3 at m3 ⊢
      have m4 := median_func_fst less d r1.1 r2.1 r3.1 r3.2
      omega
    · have m := median_func_fst less d (a + (b - a) / 4 * 1) (a + (b - a) / 4 * 2)
        (a + (b - a) / 4 * 3) 0
      omega

end PrepareFacts

section HeapFacts
variable {α : Type}

/-- `siftDown_func` from a heap that is broken at `root` only, its parent being
no less than its children, restores the heap from `lo` on. -/
theorem siftDown_func_spec (less : α → α → Bool) (hw : StrictWeak less) (hi first lo n : Nat)
    (root : Nat) (d d' : List α) (hlen : first + hi ≤ d.length) (hlo : lo ≤ root)
    (h1 : ∀ i c, lo ≤ i → i ≠ root → (c = 2 * i + 1 ∨ c = 2 * i + 2) → c < hi →
      Less less d (first + i) (first + c) = false)
    (h2 : ∀ pr c, lo ≤ pr → (root = 2 * pr + 1 ∨ root = 2 * pr + 2) →
      (c = 2 * root + 1 ∨ c = 2 * root + 2) → c < hi →
      Less less d (first + pr) (first + c) = false)
    (h : siftDown_func less hi first n root d = some d') :
    HeapFrom less d' first lo hi ∧ RangeStep d d' (first + lo) (first + hi) := by
  induction n generalizing root d with
  | zero => simp [siftDown_func] at h
  | succ n ih =>
    unfold siftDown_func at h
    simp only at h
    split at h
    · next hge =>
      simp at h
      subst h
      refine ⟨?_, RangeStep.refl _ _ _⟩
      intro i c hi1 hc hc2
      by_cases e : i = root
      · omega
      · exact h1 i c hi1 e hc hc2
    · next hlt =>
      -- the greater child `c'` and what is known of the other child
      have hch : ∃ c', (if 2 * root + 1 + 1 < hi ∧
            Less less d (first + (2 * root + 1)) (first + (2 * root + 1) + 1) = true
          then 2 * root + 1 + 1 else 2 * root + 1) = c' ∧
          (c' = 2 * root + 1 ∨ c' = 2 * root + 2) ∧ c' < hi ∧
          (∀ c, (c = 2 * root + 1 ∨ c = 2 * root + 2) → c < hi →
            Less less d (first + c') (first + c) = false) := by
        refine ⟨_, rfl, ?_⟩
        split
        · next hc =>
          refine ⟨Or.inr rfl, hc.1, ?_⟩
          intro c hc1 hc2
          rcases hc1 with e | e
          · rw [e]
            exact Less_asymm less hw d _ _ hc.2
          · rw [e]
            exact Less_irrefl less hw d _
        · next hc =>
          refine ⟨Or.inl rfl, by omega, ?_⟩
          intro c hc1 hc2
          rcases hc1 with e | e
          · rw [e]
            exact Less_irrefl less hw d _
          · rw [e]
            by_contra hx
            exact hc ⟨by omega, by simpa using hx⟩
      obtain ⟨c', hce, hc1, hc2, hc3⟩ := hch
      rw [hce] at h
      split at h
      · next hnl =>
        simp at h
        subst h
        have hnl' : Less less d (first + root) (first + c') = false := by simpa using hnl
        refine ⟨?_, RangeStep.refl _ _ _⟩
        intro i c hi1 hc hcc
        by_cases e : i = root
        · subst e
          exact Less_negTrans less hw d _ (first + c') _ (by omega) hnl' (hc3 c hc hcc)
        · exact h1 i c hi1 e hc hcc
      · next hl =>
        have hl' : Less less d (first + root) (first + c') = true := by simpa using hl
        have hsw : ∀ x y, Less less (Swap d (first + root) (first + c')) x y =
            Less less d (transpose (first + root) (first + c') x)
              (transpose (first + root) (first + c') y) :=
          fun x y => Less_Swap less d _ _ x y (by omega) (by omega)
        obtain ⟨g1, g2⟩ := ih c' (Swap d (first + root) (first + c'))
          (by rw [Swap_length]; exact hlen) (by omega)
          (by
            intro i c hi1 hne hc hcc
            rw [hsw]
            unfold transpose
            by_cases e : i = root
            · subst e
              rw [if_pos rfl]
              by_cases e2 : c = c'
              · subst e2
                rw [if_neg (by omega), if_pos rfl]
                exact Less_asymm less hw d _ _ hl'
              · rw [if_neg (by omega), if_neg (by omega)]
                exact hc3 c hc hcc
            · rw [if_neg (by omega), if_neg (by omega)]
              by_cases e2 : c = root
              · subst e2
                rw [if_pos rfl]
                exact h2 i c' hi1 hc hc1 hc2
              · rw [if_neg (by omega), if_neg (by omega)]
                exact h1 i c hi1 e hc hcc)
          (by
            intro pr c hp1 hp2 hc hcc
            have epr : pr = root := by omega
            subst epr
            rw [hsw]
            unfold transpose
            rw [if_pos rfl, if_neg (by omega), if_neg (by omega)]
            exact h1 c' c (by omega) (by omega) hc hcc)
          h
        exact ⟨g1, (RangeStep_Swap d (first + lo) (first + hi) _ _ hlen (by omega) (by omega)
          (by omega) (by omega)).trans g2⟩

/-- The root of a heap is not less than any node. -/
theorem HeapFrom.root_max (less : α → α → Bool) (hw : StrictWeak less) (d : List α)
    (first n : Nat) (hlen : first + n ≤ d.length) (hh : HeapFrom less d first 0 n) (k : Nat)
    (hk : k < n) : Less less d first (first + k) = false := by
  induction k using Nat.strong_induction_on with
  | _ k ih =>
    by_cases e : k = 0
    · subst e
      exact Less_irrefl less hw d _
    · have hp := ih ((k - 1) / 2) (by omega) (by omega)
      have hc := hh ((k - 1) / 2) k (Nat.zero_le _) (by omega) hk
      exact Less_negTrans less hw d _ (first + (k - 1) / 2) _ (by omega) hp hc

/-- The first loop of `heapSort_func` builds the heap. -/
theorem heapBuild_spec (less : α → α → Bool) (hw : StrictWeak less) (hi first k : Nat)
    (d d' : List α) (hlen : first + hi ≤ d.length) (hh : HeapFrom less d first k hi)
    (h : (List.range k).reverse.foldlM
      (fun d i => siftDown_func less hi first (hi + 1) i d) d = some d') :
    HeapFrom less d' first 0 hi ∧ RangeStep d d' first (first + hi) := by
  induction k generalizing d with
  | zero =>
    simp at h
    subst h
    exact ⟨hh, RangeStep.refl _ _ _⟩
  | succ k ih =>
    rw [List.range_succ, List.reverse_append] at h
    simp only [List.reverse_cons, List.reverse_nil, List.nil_append, List.singleton_append,
      List.foldlM_cons] at h
    cases hs : siftDown_func less hi first (hi + 1) k d with
    | none => simp [hs] at h
    | some d1 =>
      simp [hs] at h
      obtain ⟨g1, g2⟩ := siftDown_func_spec less hw hi first k (hi + 1) k d d1 hlen
        (Nat.le_refl k)
        (fun i c hi1 hne hc hcc => hh i c (by omega) hc hcc)
        (fun pr c hp1 hp2 hc hcc => by omega) hs
      obtain ⟨g3, g4⟩ := ih d1 (by rw [g2.1]; exact hlen) g1 h
      exact ⟨g3, (g2.mono (by omega) (Nat.le_refl _)).trans g4⟩

/-- The second loop of `heapSort_func` moves the greatest element of the heap
behind it, again and again. -/
theorem heapPop_spec (less : α → α → Bool) (hw : StrictWeak less) (hi first k : Nat)
    (d d' : List α) (hlen : first + hi ≤ d.length) (hk : k ≤ hi)
    (p1 : HeapFrom less d first 0 k)
    (p2 : SortedOn less d (first + k) (first + hi))
    (p3 : ∀ x o, first ≤ x → x < first + k → first + k ≤ o → o < first + hi →
      Less less d o x = false)
    (h : (List.range k).reverse.foldlM
      (fun d i => siftDown_func less i first (i + 1) 0 (Swap d first (first + i))) d =
        some d') :
    SortedOn less d' first (first + hi) ∧ RangeStep d d' first (first + hi) := by
  induction k generalizing d with
  | zero =>
    simp at h
    subst h
    exact ⟨p2, RangeStep.refl _ _ _⟩
  | succ k ih =>
    rw [List.range_succ, List.reverse_append] at h
    simp only [List.reverse_cons, List.reverse_nil, List.nil_append, List.singleton_append,
      List.foldlM_cons] at h
    cases hs : siftDown_func less k first (k + 1) 0 (Swap d first (first + k)) with
    | none => simp [hs] at h
    | some d2 =>
      simp [hs] at h
      have hmax := HeapFrom.root_max less hw d first (k + 1) (by omega) p1
      have hsw : ∀ x y, Less less (Swap d first (first + k)) x y =
          Less less d (transpose first (first + k) x) (transpose first (first + k) y) :=
        fun x y => Less_Swap less d _ _ x y (by omega) (by omega)
      have r1 : RangeStep d (Swap d first (first + k)) first (first + hi) :=
        RangeStep_Swap d first (first + hi) _ _ hlen (Nat.le_refl _) (by omega) (by omega)
          (by omega)
      have hlen1 : first + hi ≤ (Swap d first (first + k)).length := by
        rw [Swap_length]; exact hlen
      generalize Swap d first (first + k) = d1 at hs hsw r1 hlen1
      obtain ⟨g1, g2⟩ := siftDown_func_spec less hw k first 0 (k + 1) 0 d1 d2 (by omega)
        (Nat.le_refl 0)
        (by
          intro i c hi1 hne hc hcc
          rw [hsw]
          unfold transpose
          rw [if_neg (by omega), if_neg (by omega), if_neg (by omega), if_neg (by omega)]
          exact p1 i c (Nat.zero_le _) hc (by omega))
        (fun pr c hp1 hp2 hc hcc => by omega) hs
      have g2' : RangeStep d1 d2 first (first + k) := by simpa using g2
      -- what is known of `d1` right after the exchange
      have q3 : ∀ x o, first ≤ x → x < first + k → first + k ≤ o → o < first + hi →
          Less less d1 o x = false := by
        intro x o hx1 hx2 ho1 ho2
        rw [hsw]
        by_cases e : o = first + k
        · rw [e, transpose_right]
          by_cases e2 : x = first
          · rw [e2, transpose_left]
            exact hmax k (by omega)
          · rw [transpose_other _ _ x e2 (by omega)]
            have := hmax (x - first) (by omega)
            rwa [show first + (x - first) = x by omega] at this
        · rw [transpose_other _ _ o (by omega) e]
          by_cases e2 : x = first
          · rw [e2, transpose_left]
            exact p3 (first + k) o (by omega) (by omega) (by omega) ho2
          · rw [transpose_other _ _ x e2 (by omega)]
            exact p3 x o hx1 (by omega) (by omega) ho2
      have q2 : SortedOn less d1 (first + k) (first + hi) := by
        intro x y hx hxy hy
        rw [hsw, transpose_other _ _ y (by omega) (by omega)]
        by_cases e : x = first + k
        · rw [e, transpose_right]
          exact p3 first y (Nat.le_refl _) (by omega) (by omega) hy
        · rw [transpose_other _ _ x (by omega) e]
          exact p2 x y (by omega) hxy hy
      obtain ⟨g3, g4⟩ := ih d2 (by rw [g2'.1]; exact hlen1) (by omega) g1
        (g2'.SortedOn_outside less q2 (Or.inr (Nat.le_refl _)))
        (by
          intro x o hx1 hx2 ho1 ho2
          exact g2'.Less_out_in less false o (Or.inr (by omega))
            (fun x' h1' h2' => q3 x' o h1' h2' ho1 ho2) x hx1 hx2)
        h
      exact ⟨g3, r1.trans ((g2'.mono (Nat.le_refl _) (by omega)).trans g4)⟩

/-- What `heapSort_func` achieves: it only moves elements inside the range and
leaves the range sorted. -/
theorem heapSort_func_spec (less : α → α → Bool) (hw : StrictWeak less) (d d' : List α)
    (a b : Nat) (hb : b ≤ d.length) (hab : a ≤ b) (h : heapSort_func less d a b = some d') :
    RangeStep d d' a b ∧ SortedOn less d' a b := by
  unfold heapSort_func at h
  simp only [bind, Option.bind] at h
  split at h
  · simp at h
  · next d1 hd1 =>
    have hlen : a + (b - a) ≤ d.length := by omega
    obtain ⟨g1, g2⟩ := heapBuild_spec less hw (b - a) a ((b - a - 1) / 2 + 1) d d1 hlen
      (fun i c hi1 hc hcc => by omega) hd1
    obtain ⟨g3, g4⟩ := heapPop_spec less hw (b - a) a (b - a) d1 d' (by rw [g2.1]; exact hlen)
      (Nat.le_refl _) g1 (fun x y hx hxy hy => by omega)
      (fun x o hx1 hx2 ho1 ho2 => by omega) h
    rw [show a + (b - a) = b by omega] at g2 g3 g4
    exact ⟨g2.trans g4, g3⟩

end HeapFacts

section PdqFacts
variable {α : Type}

theorem pdqsortPrepare_spec (less : α → α → Bool) (hw : StrictWeak less) (d : List α)
    (a b limit : Nat) (wb wp : Bool) (hb : b ≤ d.length) (hab : 12 < b - a)
    (hl : LeftBound less d a b) :
    RangeStep d (pdqsortPrepare less d a b limit wb wp).d a b ∧
      a ≤ (pdqsortPrepare less d a b limit wb wp).pivot ∧
      (pdqsortPrepare less d a b limit wb wp).pivot < b ∧
      ((pdqsortPrepare less d a b limit wb wp).sorted = true →
        SortedOn less (pdqsortPrepare less d a b limit wb wp).d a b) := by
  have h1 : RangeStep d
      (if ¬ wb then (breakPatterns_func d a b, limit - 1) else (d, limit)).1 a b := by
    split
    · exact breakPatterns_func_range d a b hb
    · exact RangeStep.refl _ _ _
  unfold pdqsortPrepare
  simp only
  generalize (if ¬ wb then (breakPatterns_func d a b, limit - 1) else (d, limit)) = bp at h1 ⊢
  obtain ⟨c1, c2⟩ := choosePivot_func_range less bp.1 a b (by omega)
  generalize choosePivot_func less bp.1 a b = ch at c1 c2 ⊢
  have hb1 : b ≤ bp.1.length := by rw [h1.1]; exact hb
  have h2 : RangeStep bp.1
      (if ch.2 = sortedHint.decreasingHint then
        (reverseRange_func bp.1 a b, b - 1 - (ch.1 - a), sortedHint.increasingHint)
      else (bp.1, ch.1, ch.2)).1 a b ∧
      a ≤ (if ch.2 = sortedHint.decreasingHint then
        (reverseRange_func bp.1 a b, b - 1 - (ch.1 - a), sortedHint.increasingHint)
      else (bp.1, ch.1, ch.2)).2.1 ∧
      (if ch.2 = sortedHint.decreasingHint then
        (reverseRange_func bp.1 a b, b - 1 - (ch.1 - a), sortedHint.increasingHint)
      else (bp.1, ch.1, ch.2)).2.1 < b := by
    split
    · exact ⟨reverseRange_func_range bp.1 a b hb1, by simp only; omega, by simp only; omega⟩
    · exact ⟨RangeStep.refl _ _ _, c1, c2⟩
  generalize (if ch.2 = sortedHint.decreasingHint then
        (reverseRange_func bp.1 a b, b - 1 - (ch.1 - a), sortedHint.increasingHint)
      else (bp.1, ch.1, ch.2)) = rv at h2 ⊢
  obtain ⟨h2a, h2b, h2c⟩ := h2
  have r12 : RangeStep d rv.1 a b := h1.trans h2a
  split
  · obtain ⟨r3, s3⟩ := partialInsertionSort_func_spec less hw rv.1 a b
      (by rw [r12.1]; exact hb) (by omega) (LeftBound.step less r12 hl)
    exact ⟨r12.trans r3, h2b, h2c, s3⟩
  · exact ⟨r12, h2b, h2c, fun h => by simp at h⟩

/-- A range is sorted when it is split at `mid` into a sorted part of elements
less than the one at `mid` and a sorted part of elements not less than it. -/
theorem SortedOn_combine (less : α → α → Bool) (hw : StrictWeak less) (d : List α)
    (a mid b : Nat)
    (hL : ∀ k, a ≤ k → k < mid → Less less d k mid = true)
    (hR : ∀ k, mid < k → k < b → Less less d k mid = false)
    (sL : SortedOn less d a mid) (sR : SortedOn less d (mid + 1) b) :
    SortedOn less d a b := by
  intro i j hi hij hj
  by_cases h1 : j < mid
  · exact sL i j hi hij h1
  · by_cases h2 : mid < i
    · exact sR i j (by omega) hij hj
    · by_cases h3 : j = mid
      · rw [h3]
        exact Less_asymm less hw d i mid (hL i hi (by omega))
      · by_cases h4 : i = mid
        · rw [h4]
          exact hR j (by omega) hj
        · by_contra hx
          have hx' : Less less d j i = true := by simpa using hx
          have := Less_trans less hw d j i mid hx' (hL i hi (by omega))
          rw [hR j (by omega) hj] at this
          exact Bool.noConfusion this

theorem LeftBound.sub (less : α → α → Bool) {d : List α} {a b b' : Nat}
    (hl : LeftBound less d a b) (hb : b' ≤ b) : LeftBound less d a b' := by
  rcases hl with h | h
  · exact Or.inl h
  · exact Or.inr (fun k h1 h2 => h k h1 (by omega))

/-- What `pdqsort_func` achieves on a range whose left neighbour is a lower
bound: it only moves elements inside the range, and leaves the range sorted. -/
theorem pdqsort_func_spec (less : α → α → Bool) (hw : StrictWeak less) (fuel : Nat)
    (d : List α) (a b limit : Nat) (wb wp : Bool) (d' : List α)
    (hb : b ≤ d.length) (hl : LeftBound less d a b)
    (h : pdqsort_func less fuel d a b limit wb wp = some d') :
    RangeStep d d' a b ∧ SortedOn less d' a b := by
  induction fuel generalizing d a b limit wb wp d' with
  | zero => simp [pdqsort_func] at h
  | succ fuel ih =>
    unfold pdqsort_func at h
    by_cases h12 : b - a ≤ 12
    · simp only [if_pos h12] at h
      simp at h
      subst h
      obtain ⟨s, r⟩ := insertionSort_func_spec less hw d a b hb
      exact ⟨r, s⟩
    · simp only [if_neg h12] at h
      by_cases hlim : limit = 0
      · simp only [if_pos hlim] at h
        exact heapSort_func_spec less hw d d' a b hb (by omega) h
      · simp only [if_neg hlim] at h
        obtain ⟨rp, hp1, hp2, hps⟩ := pdqsortPrepare_spec less hw d a b limit wb wp hb
          (by omega) hl
        generalize pdqsortPrepare less d a b limit wb wp = p at h rp hp1 hp2 hps
        have hbp : b ≤ p.d.length := by rw [rp.1]; exact hb
        have hlp : LeftBound less p.d a b := LeftBound.step less rp hl
        split at h
        · next hsorted =>
          simp at h
          subst h
          exact ⟨rp, hps hsorted⟩
        · split at h
          · next hc =>
            -- many elements equal to the pivot
            split at h
            · simp at h
            · next d1 mid he =>
              obtain ⟨r1, m1, m2, e1, q1, q2⟩ := partitionEqual_func_spec less p.d a b p.pivot
                d1 mid hbp (by omega) hp1 hp2 he
              have hb1 : b ≤ d1.length := by rw [r1.1]; exact hbp
              -- nothing in the range is less than the pivot
              have hpiv : ∀ k, a ≤ k → k < b → Less less d1 k a = false := by
                intro k hk1 hk2
                obtain ⟨k', hk1', hk2', e⟩ := r1.2.2 k hk1 hk2
                rw [Less_congr less p.d d1 k a k' p.pivot e e1]
                rcases hlp with h0 | hlp
                · omega
                · have hna : Less less p.d (a - 1) p.pivot = false := by
                    simpa using hc.2
                  exact Less_negTrans less hw p.d k' (a - 1) p.pivot (by omega)
                    (hlp k' hk1' hk2') hna
              have hq1 : ∀ k, a ≤ k → k < mid → Less less d1 a k = false := by
                intro k hk1 hk2
                by_cases e : k = a
                · rw [e]; exact Less_irrefl less hw d1 a
                · exact q1 k (by omega) hk2
              have hlb : LeftBound less d1 mid b := by
                right
                intro k hk1 hk2
                by_contra hx
                have hx' : Less less d1 k (mid - 1) = true := by simpa using hx
                have := Less_trans less hw d1 a k (mid - 1) (q2 k hk1 hk2) hx'
                rw [hq1 (mid - 1) (by omega) (by omega)] at this
                exact Bool.noConfusion this
              obtain ⟨r2, s2⟩ := ih d1 mid b p.limit wb wp d' hb1 hlb h
              refine ⟨rp.trans (r1.trans (r2.mono (by omega) (Nat.le_refl b))), ?_⟩
              intro i j hi hij hj
              by_cases c1 : mid ≤ i
              · exact s2 i j c1 hij hj
              · have ei : d'[i]? = d1[i]? := r2.2.1 i (by omega)
                by_cases c2 : j < mid
                · have ej : d'[j]? = d1[j]? := r2.2.1 j (by omega)
                  rw [Less_congr less d1 d' j i j i ej ei]
                  exact Less_negTrans less hw d1 j a i (by omega) (hpiv j (by omega) hj)
                    (hq1 i hi (by omega))
                · obtain ⟨j', hj1', hj2', ej⟩ := r2.2.2 j (by omega) hj
                  rw [Less_congr less d1 d' j i j' i ej ei]
                  by_contra hx
                  have hx' : Less less d1 j' i = true := by simpa using hx
                  have := Less_trans less hw d1 a j' i (q2 j' hj1' hj2') hx'
                  rw [hq1 i hi (by omega)] at this
                  exact Bool.noConfusion this
          · next hc =>
            split at h
            · simp at h
            · next d1 mid ap hpart =>
              obtain ⟨r1, m1, m2, pL, pR⟩ := partition_func_spec less p.d a b p.pivot d1 mid ap
                hbp (by omega) hp1 hp2 hpart
              have hb1 : b ≤ d1.length := by rw [r1.1]; exact hbp
              have hl1 : LeftBound less d1 a b := LeftBound.step less r1 hlp
              split at h
              · -- the left part first
                split at h
                · simp at h
                · next d2 hrec1 =>
                  have hmid : mid ≤ d1.length := by omega
                  obtain ⟨r2, s2⟩ := ih d1 a mid p.limit true true d2 hmid
                    (LeftBound.sub less hl1 (by omega)) hrec1
                  have hL2 : ∀ k, a ≤ k → k < mid → Less less d2 k mid = true :=
                    r2.Less_in_out less true mid (Or.inr (Nat.le_refl _)) pL
                  have hR2 : ∀ k, mid < k → k < b → Less less d2 k mid = false := by
                    intro k hk1 hk2
                    rw [Less_congr less d1 d2 k mid k mid (r2.2.1 k (by omega))
                      (r2.2.1 mid (by omega))]
                    exact pR k hk1 hk2
                  obtain ⟨r3, s3⟩ := ih d2 (mid + 1) b p.limit _ _ d'
                    (by rw [r2.1]; exact hb1)
                    (Or.inr (fun k hk1 hk2 => hR2 k (by omega) hk2)) h
                  refine ⟨rp.trans (r1.trans ((r2.mono (Nat.le_refl a) (by omega)).trans
                    (r3.mono (by omega) (Nat.le_refl b)))), ?_⟩
                  apply SortedOn_combine less hw d' a mid b
                  · intro k hk1 hk2
                    rw [Less_congr less d2 d' k mid k mid (r3.2.1 k (by omega))
                      (r3.2.1 mid (by omega))]
                    exact hL2 k hk1 hk2
                  · exact fun k hk1 hk2 => r3.Less_in_out less false mid (Or.inl (by omega))
                      (fun k h1 h2 => hR2 k (by omega) h2) k (by omega) hk2
                  · exact r3.SortedOn_outside less s2 (Or.inl (by omega))
                  · exact s3
              · -- the right part first
                split at h
                · simp at h
                · next d2 hrec1 =>
                  obtain ⟨r2, s2⟩ := ih d1 (mid + 1) b p.limit true true d2 hb1
                    (Or.inr (fun k hk1 hk2 => pR k (by omega) hk2)) hrec1
                  have hL2 : ∀ k, a ≤ k → k < mid → Less less d2 k mid = true := by
                    intro k hk1 hk2
                    rw [Less_congr less d1 d2 k mid k mid (r2.2.1 k (by omega))
                      (r2.2.1 mid (by omega))]
                    exact pL k hk1 hk2
                  have hR2 : ∀ k, mid < k → k < b → Less less d2 k mid = false :=
                    fun k hk1 hk2 => r2.Less_in_out less false mid (Or.inl (by omega))
                      (fun k h1 h2 => pR k (by omega) h2) k (by omega) hk2
                  have hl2 : LeftBound less d2 a mid := by
                    rcases hl1 with h0 | hl1
                    · exact Or.inl h0
                    · right
                      intro k hk1 hk2
                      rw [Less_congr less d1 d2 k (a - 1) k (a - 1) (r2.2.1 k (by omega))
                        (r2.2.1 (a - 1) (by omega))]
                      exact hl1 k hk1 (by omega)
                  obtain ⟨r3, s3⟩ := ih d2 a mid p.limit _ _ d'
                    (by rw [r2.1]; omega) hl2 h
                  refine ⟨rp.trans (r1.trans ((r2.mono (by omega) (Nat.le_refl b)).trans
                    (r3.mono (Nat.le_refl a) (by omega)))), ?_⟩
                  apply SortedOn_combine less hw d' a mid b
                  · exact r3.Less_in_out less true mid (Or.inr (Nat.le_refl _)) hL2
                  · intro k hk1 hk2
                    rw [Less_congr less d2 d' k mid k mid (r3.2.1 k (by omega))
                      (r3.2.1 mid (by omega))]
                    exact hR2 k hk1 hk2
                  · exact s3
                  · exact r3.SortedOn_outside less s2 (Or.inr (by omega))

end PdqFacts

/-! ## Properties of `sortOut` -/

/-- The comparison of `sortOut` never holds between entries with the same
seeders text. -/
theorem seedersGreater_ne (x y : torrent) (h : seedersGreater x y = true) :
    x.seeders ≠ y.seeders := by
  intro e
  unfold seedersGreater at h
  rw [e] at h
  simp at h

/-- The comparison of `sortOut` is the order of strings: `x.seeders > y.seeders`. -/
theorem seedersGreater_iff (x y : torrent) :
    seedersGreater x y = true ↔ x.seeders > y.seeders := by
  simp [seedersGreater, String.lt_iff_toList_lt]

/-- `sortOut` returns, and changes nothing but the order of `s.out`. -/
theorem sortOut_some (s : search) :
    ∃ out, s.sortOut = some ⟨s.in_, out, s.sourceToLookup⟩ ∧ out.Perm s.out := by
  obtain ⟨out, h⟩ := Slice_some seedersGreater s.out
  refine ⟨out, ?_, Slice_perm seedersGreater s.out out h⟩
  unfold search.sortOut
  rw [h]

/-- `sortOut` leaves a list alone in which no entry has greater seeders than an
entry before it. -/
theorem sortOut_of_pairwise (s : search)
    (hs : s.out.Pairwise (fun x y => seedersGreater y x = false)) : s.sortOut = some s := by
  unfold search.sortOut
  rw [Slice_of_pairwise seedersGreater s.out hs]

/-- Entries built with one and the same seeders text are in `sortOut` order. -/
theorem pairwise_of_seeders_eq (l : List torrent) (v : String) (h : ∀ t ∈ l, t.seeders = v) :
    l.Pairwise (fun x y => seedersGreater y x = false) := by
  rw [List.pairwise_iff_forall_sublist]
  intro x y hxy
  have hx := h x (hxy.subset (by simp))
  have hy := h y (hxy.subset (by simp))
  simp [seedersGreater, hx, hy]

/-- When all entries carry the same seeders text, as the entries that `main`
builds from lookup results do (their seeders are empty), `sortOut` leaves the
list as it is. -/
theorem sortOut_of_seeders_eq (s : search) (v : String) (h : ∀ t ∈ s.out, t.seeders = v) :
    s.sortOut = some s :=
  sortOut_of_pairwise s (pairwise_of_seeders_eq s.out v h)

/-- C5: for every list of torrents, `sortOut` returns and the list after it is a
permutation of the list before it (same multiset of torrent values, same
length); the other fields of the search are untouched. -/
theorem sortOut_perm (s : search) :
    ∃ s', s.sortOut = some s' ∧ s'.out.Perm s.out ∧ s'.out.length = s.out.length ∧
      s'.in_ = s.in_ ∧ s'.sourceToLookup = s.sourceToLookup := by
  obtain ⟨out, h, hp⟩ := sortOut_some s
  exact ⟨_, h, hp, hp.length_eq, rfl, rfl⟩

/-- C4, the code at the failing input: seeders `9` and `10` stay in the order
`9`, `10` because `"9" > "10"` as text, so the numbers are not descending;
seeders `5` and `50` do come out as `50`, `5`. -/
theorem sortOut_nine_before_ten :
    (search.sortOut ⟨"q", [⟨"", "", "", "a", "", "9", "", "", ""⟩,
        ⟨"", "", "", "b", "", "10", "", "", ""⟩], "archive"⟩).map
        (fun s => s.out.map (fun t => t.seeders)) = some ["9", "10"] ∧
    (search.sortOut ⟨"q", [⟨"", "", "", "a", "", "5", "", "", ""⟩,
        ⟨"", "", "", "b", "", "50", "", "", ""⟩], "archive"⟩).map
        (fun s => s.out.map (fun t => t.seeders)) = some ["50", "5"] := by
  decide

section SliceSorts
variable {α : Type}

/-- `sort.Slice` with a strict weak order returns a sorted slice: no element is
`less` than an element before it. -/
theorem Slice_sorted (less : α → α → Bool) (hw : StrictWeak less) (x x' : List α)
    (h : Slice less x = some x') : x'.Pairwise (fun u v => less v u = false) := by
  obtain ⟨r, s⟩ := pdqsort_func_spec less hw _ x 0 x.length _ true true x' (Nat.le_refl _)
    (Or.inl rfl) h
  rw [List.pairwise_iff_getElem]
  intro i j hi hj hij
  have := s i j (Nat.zero_le _) hij (by rw [← r.1]; exact hj)
  rwa [Less_eq_less less x' j i hj hi] at this

/-- `sort.Slice` with a strict weak order is idempotent. -/
theorem Slice_idempotent (less : α → α → Bool) (hw : StrictWeak less) (x x' : List α)
    (h : Slice less x = some x') : Slice less x' = some x' :=
  Slice_of_pairwise less x' (Slice_sorted less hw x x' h)

end SliceSorts

/-- The comparison of `sortOut` is a strict weak order. -/
theorem seedersGreater_strictWeak : StrictWeak seedersGreater := by
  constructor
  · intro x y h
    simp only [seedersGreater, decide_eq_true_eq, decide_eq_false_iff_not] at h ⊢
    exact lt_asymm h
  · intro x y z h1 h2
    simp only [seedersGreater, decide_eq_false_iff_not, not_lt] at h1 h2 ⊢
    exact le_trans h1 h2

/-- After `sortOut` no entry has greater seeders, as text, than an entry before
it. -/
theorem sortOut_sorted (s s' : search) (h : s.sortOut = some s') :
    s'.out.Pairwise (fun x y => seedersGreater y x = false) := by
  unfold search.sortOut at h
  split at h
  · simp at h
  · next out hout =>
    simp at h
    subst h
    exact Slice_sorted seedersGreater seedersGreater_strictWeak s.out out hout

set_option maxRecDepth 100000 in
/-- C6 fails on thirteen entries: twelve entries `a` .. `l` with equal seeders
`0` followed by `m` with seeders `1` come out as `m g c d e f a h i j k l b`,
so `g` has moved before `a` and `b` behind `l`: the entries with seeders `0`
are no longer in their original order. -/
theorem sortOut_not_stable_on_thirteen :
    (search.sortOut ⟨"q", thirteen, "archive"⟩).map (fun s => s.out.map (fun t => t.name)) =
      some ["m", "g", "c", "d", "e", "f", "a", "h", "i", "j", "k", "l", "b"] ∧
    (search.sortOut ⟨"q", thirteen, "archive"⟩).map
        (fun s => s.out.filter (fun t => decide (t.seeders = "0"))) ≠
      some (thirteen.filter (fun t => decide (t.seeders = "0"))) := by
  decide

/-- C6 as amended: on a list of at most twelve entries `sortOut` keeps, for
every seeders text `v`, the entries with seeders `v` in their original order;
on a list of any length that is already in order (no entry has greater seeders
than an entry before it) `sortOut` returns the identical list; and on every
list `sortOut` returns a list in that order, so that applying `sortOut` again
changes nothing (`sortOut` is idempotent). -/
theorem sortOut_stable_when_short_and_idempotent (s : search) :
    (s.out.length ≤ 12 → ∃ s', s.sortOut = some s' ∧
      ∀ v : String, s'.out.filter (fun t => decide (t.seeders = v)) =
        s.out.filter (fun t => decide (t.seeders = v))) ∧
    (s.out.Pairwise (fun x y => seedersGreater y x = false) → s.sortOut = some s) ∧
    (∃ s', s.sortOut = some s' ∧ s'.out.Pairwise (fun x y => seedersGreater y x = false) ∧
      s'.sortOut = some s') := by
  refine ⟨?_, sortOut_of_pairwise s, ?_⟩
  · intro h
    refine ⟨⟨s.in_, insertionSort_func seedersGreater s.out 0 s.out.length, s.sourceToLookup⟩,
      ?_, ?_⟩
    · unfold search.sortOut
      rw [Slice_short seedersGreater s.out h]
    · intro v
      apply insertionSort_func_filter
      intro x y hl hxy
      simp only [decide_eq_true_eq] at hxy
      exact seedersGreater_ne x y hl (hxy.1.trans hxy.2.symm)
  · obtain ⟨out, h, _⟩ := sortOut_some s
    have hs := sortOut_sorted s _ h
    exact ⟨_, h, hs, sortOut_of_pairwise _ hs⟩

/-- C6 as amended, at concrete inputs: three entries with seeders `1`, `2`, `1`,
and the thirteen entries above put in order. -/
theorem sortOut_stable_when_short_and_idempotent_witness :
    (∃ s', search.sortOut ⟨"q", [⟨"", "", "", "a", "", "1", "", "", ""⟩,
        ⟨"", "", "", "b", "", "2", "", "", ""⟩, ⟨"", "", "", "c", "", "1", "", "", ""⟩],
        "archive"⟩ = some s' ∧
      ∀ v : String, s'.out.filter (fun t => decide (t.seeders = v)) =
        [⟨"", "", "", "a", "", "1", "", "", ""⟩, ⟨"", "", "", "b", "", "2", "", "", ""⟩,
          ⟨"", "", "", "c", "", "1", "", "", ""⟩].filter (fun t => decide (t.seeders = v))) ∧
    search.sortOut ⟨"q", thirteen.reverse, "archive"⟩ = some ⟨"q", thirteen.reverse, "archive"⟩ :=
  ⟨(sortOut_stable_when_short_and_idempotent
      ⟨"q", [⟨"", "", "", "a", "", "1", "", "", ""⟩, ⟨"", "", "", "b", "", "2", "", "", ""⟩,
        ⟨"", "", "", "c", "", "1", "", "", ""⟩], "archive"⟩).1 (by decide),
   (sortOut_stable_when_short_and_idempotent ⟨"q", thirteen.reverse, "archive"⟩).2.1
      (by decide)⟩

/-! ## Properties of `main` -/

/-- Row `i` of the rendered table shows entry `i` of the list under the label
`Itoa i`. -/
theorem render_getElem? (torrents : List torrent) (i : Nat) :
    (render torrents)[i]? = torrents[i]?.map fun t =>
      [Itoa (i : Int), t.name, t.size, t.seeders, t.leechers, t.uplDate, t.source] := by
  simp [render]

/-- From "Sort results" on, for source `archive` and an accepted index `i` that
is in range: the table rendered is that of the sorted list, and the reference
downloaded is the `descURL` of entry `i` of the sorted list. -/
theorem rankAndSelect_archive (n : Nat) (e : Env) (s s' : search) (printed lookups : List String)
    (c : Console) (i : Nat) (t : torrent)
    (hsrc : s.sourceToLookup = "archive") (hsort : s.sortOut = some s')
    (hsel : selectLoop n
      ⟨e.stdin, printed ++ ["Please select a torrent to download (enter its index): "]⟩ =
        .selected c (i : Int))
    (ht : s'.out[i]? = some t) :
    (rankAndSelect n e s printed lookups).table = some (render s'.out) ∧
      (rankAndSelect n e s printed lookups).out = s'.out ∧
      (rankAndSelect n e s printed lookups).index = some (i : Int) ∧
      (rankAndSelect n e s printed lookups).downloads = [t.descURL] := by
  have hsrc' : s'.sourceToLookup = "archive" := by
    obtain ⟨out, h, _⟩ := sortOut_some s
    rw [hsort] at h
    cases h
    exact hsrc
  have hsub : subscript s'.out (i : Int) = some t := by
    simp [subscript, ht]
  unfold rankAndSelect
  simp only [hsort, hsel]
  unfold downloadAndOpen
  simp only [hsrc', if_true, hsub]
  cases hd : e.arc.Download t.descURL with
  | error err => simp
  | ok filePath =>
    cases hc : e.deluge filePath <;> simp [hc]

/-- C9: for source `archive`, a query that passes `cleanIn`, any list `rs` of
lookup results and any accepted index `i` in range: `sortOut` returns a list
`s'.out`, the table rendered is that of `s'.out`, its row `i` carries the label
`Itoa i` and the fields of `s'.out[i]`, and the one reference passed to
`arc.Download` is the `descURL` of that same entry `s'.out[i]`. -/
theorem main_downloads_entry_of_rendered_row (n : Nat) (e : Env) (rs : List ArcTorrent)
    (c : Console) (i : Nat)
    (hw : e.w = some "archive") (hargs : e.args ≠ []) (hq : Join e.args " " ≠ "")
    (hl : e.arc.Lookup (Join e.args " ") = .ok rs)
    (hsel : selectLoop n
      ⟨e.stdin, ["Please select a torrent to download (enter its index): "]⟩ =
        .selected c (i : Int))
    (hi : i < rs.length) :
    ∃ s' t,
      search.sortOut ⟨Join e.args " ",
        rs.map (fun r => ⟨"", "", r.DescURL, r.Name, "", "", "", "", "Archive"⟩),
        "archive"⟩ = some s' ∧
      s'.out[i]? = some t ∧
      (main n e).out = s'.out ∧
      (main n e).table = some (render s'.out) ∧
      (render s'.out)[i]? =
        some [Itoa (i : Int), t.name, t.size, t.seeders, t.leechers, t.uplDate, t.source] ∧
      (main n e).index = some (i : Int) ∧
      (main n e).downloads = [t.descURL] := by
  obtain ⟨out, hs', hperm⟩ := sortOut_some ⟨Join e.args " ",
    rs.map (fun r => ⟨"", "", r.DescURL, r.Name, "", "", "", "", "Archive"⟩), "archive"⟩
  generalize hs'' : (⟨Join e.args " ", out, "archive"⟩ : search) = s' at hs'
  have hi' : i < s'.out.length := by
    rw [← hs'']
    show i < out.length
    rw [hperm.length_eq]
    simpa using hi
  have ht : s'.out[i]? = some (s'.out[i]) := List.getElem?_eq_getElem hi'
  have hmain : main n e = rankAndSelect n e ⟨Join e.args " ",
      rs.map (fun r => ⟨"", "", r.DescURL, r.Name, "", "", "", "", "Archive"⟩), "archive"⟩
      [] [Join e.args " "] := by
    have hlen0 : ¬ e.args.length = 0 := by
      intro h0
      exact hargs (List.length_eq_zero.mp h0)
    unfold main
    simp only [hw, Option.getD_some, hlen0, if_false, search.cleanIn, hq, searchTorrents,
      if_true, hl, List.nil_append]
  have hr := rankAndSelect_archive n e _ s' [] [Join e.args " "] c i (s'.out[i]) rfl hs'
    (by simpa using hsel) ht
  refine ⟨s', s'.out[i], hs', ht, ?_, ?_, ?_, ?_, ?_⟩
  · rw [hmain]; exact hr.2.1
  · rw [hmain]; exact hr.1
  · rw [render_getElem?, ht]; rfl
  · rw [hmain]; exact hr.2.2.1
  · rw [hmain]; exact hr.2.2.2

/-- C9 at a concrete run: two results, the user types `1`. -/
theorem main_downloads_entry_of_rendered_row_witness :
    archiveRun.w = some "archive" ∧ archiveRun.args ≠ [] ∧ Join archiveRun.args " " ≠ "" ∧
    ∃ s' t,
      search.sortOut ⟨Join archiveRun.args " ",
        [(⟨"u0", "n0"⟩ : ArcTorrent), ⟨"u1", "n1"⟩].map
          (fun r => ⟨"", "", r.DescURL, r.Name, "", "", "", "", "Archive"⟩),
        "archive"⟩ = some s' ∧
      s'.out[1]? = some t ∧
      (main 1 archiveRun).out = s'.out ∧
      (main 1 archiveRun).table = some (render s'.out) ∧
      (render s'.out)[1]? =
        some [Itoa ((1 : Nat) : Int), t.name, t.size, t.seeders, t.leechers, t.uplDate,
          t.source] ∧
      (main 1 archiveRun).index = some ((1 : Nat) : Int) ∧
      (main 1 archiveRun).downloads = [t.descURL] :=
  ⟨by decide, by decide, by decide,
    main_downloads_entry_of_rendered_row 1 archiveRun [⟨"u0", "n0"⟩, ⟨"u1", "n1"⟩]
      ⟨[], ["Please select a torrent to download (enter its index): "]⟩ 1
      (by decide) (by decide) (by decide) rfl (by decide) (by decide)⟩

/-- From "Sort results" on, on a list that `sortOut` reorders (seeders `1` then
`2`): the table shows the entry with seeders `2` in row `0`, and index `0`
downloads that entry, not the one that was first before the sort. -/
theorem rankAndSelect_follows_sortOut_example :
    (rankAndSelect 1 ⟨some "archive", ["q"], "0\n".data,
        ⟨fun _ => .ok [], fun _ => .ok "f"⟩, fun _ => none⟩
      ⟨"q", [⟨"", "", "ua", "a", "", "1", "", "", "Archive"⟩,
        ⟨"", "", "ub", "b", "", "2", "", "", "Archive"⟩], "archive"⟩ [] ["q"]).table =
      some [["0", "b", "", "2", "", "", "Archive"], ["1", "a", "", "1", "", "", "Archive"]] ∧
    (rankAndSelect 1 ⟨some "archive", ["q"], "0\n".data,
        ⟨fun _ => .ok [], fun _ => .ok "f"⟩, fun _ => none⟩
      ⟨"q", [⟨"", "", "ua", "a", "", "1", "", "", "Archive"⟩,
        ⟨"", "", "ub", "b", "", "2", "", "", "Archive"⟩], "archive"⟩ [] ["q"]).downloads =
      ["ub"] := by
  decide

/-- One pass of the selection loop only adds to the lines printed. -/
theorem selectStep_stdout (c : Console) : c.stdout <+: (selectStep c).1.stdout := by
  unfold selectStep
  simp only
  split
  · exact List.prefix_append _ _
  · split
    · exact List.prefix_append _ _
    · exact List.prefix_refl _

/-- The selection loop only adds to the lines printed. -/
theorem selectLoop_stdout (n : Nat) (c : Console) :
    (∀ c', selectLoop n c = .awaiting c' → c.stdout <+: c'.stdout) ∧
      (∀ c' i, selectLoop n c = .selected c' i → c.stdout <+: c'.stdout) := by
  induction n generalizing c with
  | zero =>
    constructor
    · intro c' h
      simp [selectLoop] at h
      subst h
      exact List.prefix_refl _
    · intro c' i h
      simp [selectLoop] at h
  | succ n ih =>
    have hs := selectStep_stdout c
    unfold selectLoop
    cases hstep : selectStep c with
    | mk c1 r =>
      rw [hstep] at hs
      cases r with
      | none =>
        simp only
        exact ⟨fun c' h => hs.trans ((ih c1).1 c' h), fun c' i h => hs.trans ((ih c1).2 c' i h)⟩
      | some v =>
        simp only
        constructor
        · intro c' h
          simp at h
        · intro c' i h
          simp at h
          rw [← h.1]
          exact hs

/-- C7 fails: with the default source `all`, the archive adapter would return
one raw result for the query, but no lookup is made and `s.out` is empty. -/
theorem main_all_makes_no_lookup_example :
    (∃ r, allRun.arc.Lookup "ubuntu" = .ok [r]) ∧ (allRun.w.getD "all" = "all") ∧
      (main 1 allRun).lookups = [] ∧ (main 1 allRun).out = [] ∧
      (main 1 allRun).exit = .returned :=
  ⟨⟨_, rfl⟩, by decide, by decide, by decide, by decide⟩

/-- C7 as amended: when the target source is the `all` sentinel (the default of
flag `-w`) and the query passes `cleanIn`, no adapter is invoked: the lookup
switch only prints "Lookup all", `s.out` is empty whatever the adapters would
return, the table rendered has no row, nothing is downloaded, and the run does
not fail (it returns, or is still waiting for an index). -/
theorem main_all_invokes_no_adapter (n : Nat) (e : Env)
    (hw : e.w = none ∨ e.w = some "all") (hargs : e.args ≠ []) (hq : Join e.args " " ≠ "") :
    (main n e).lookups = [] ∧ (main n e).out = [] ∧ (main n e).table = some [] ∧
      (main n e).downloads = [] ∧ "Lookup all" ∈ (main n e).stdout ∧
      ((main n e).exit = .returned ∨ (main n e).exit = .awaitingInput) := by
  have hsrc : e.w.getD "all" = "all" := by
    rcases hw with h | h <;> simp [h]
  have hlen0 : ¬ e.args.length = 0 := fun h0 => hargs (List.length_eq_zero.mp h0)
  have hne : ("all" : String) ≠ "archive" := by decide
  have hsort : search.sortOut ⟨Join e.args " ", [], "all"⟩ = some ⟨Join e.args " ", [], "all"⟩ :=
    sortOut_of_pairwise _ List.Pairwise.nil
  have hmain : main n e = rankAndSelect n e ⟨Join e.args " ", [], "all"⟩ ["Lookup all"] [] := by
    unfold main
    simp only [hsrc, hlen0, if_false, search.cleanIn, hq, searchTorrents, hne, if_true]
  rw [hmain]
  unfold rankAndSelect
  simp only [hsort]
  have hpre := selectLoop_stdout n
    ⟨e.stdin, ["Lookup all"] ++ ["Please select a torrent to download (enter its index): "]⟩
  cases hsel : selectLoop n
      ⟨e.stdin, ["Lookup all"] ++ ["Please select a torrent to download (enter its index): "]⟩ with
  | awaiting c =>
    have hp : "Lookup all" ∈ c.stdout :=
      (hpre.1 c hsel).subset (List.mem_cons_self _ _)
    simp only [render, List.mapIdx_nil, true_and, or_true, and_true]
    exact hp
  | selected c i =>
    have hp : "Lookup all" ∈ c.stdout :=
      (hpre.2 c i hsel).subset (List.mem_cons_self _ _)
    unfold downloadAndOpen
    simp only [hne, if_false, if_true, render, List.mapIdx_nil, true_and, true_or, and_true]
    exact List.mem_append_left _ hp

/-- C7 as amended, at a concrete run with the default source. -/
theorem main_all_invokes_no_adapter_witness :
    (allRun.w = none ∨ allRun.w = some "all") ∧ allRun.args ≠ [] ∧ Join allRun.args " " ≠ "" ∧
    (main 1 allRun).lookups = [] ∧ (main 1 allRun).out = [] ∧ (main 1 allRun).table = some [] ∧
      (main 1 allRun).downloads = [] ∧ "Lookup all" ∈ (main 1 allRun).stdout ∧
      ((main 1 allRun).exit = .returned ∨ (main 1 allRun).exit = .awaitingInput) :=
  ⟨by decide, by decide, by decide,
    main_all_invokes_no_adapter 1 allRun (by decide) (by decide) (by decide)⟩

/-- While the selection loop is running, the run is waiting for an index:
nothing has been selected or downloaded. -/
theorem rankAndSelect_awaiting (n : Nat) (e : Env) (s : search) (printed lookups : List String)
    (c : Console)
    (h : selectLoop n
      ⟨e.stdin, printed ++ ["Please select a torrent to download (enter its index): "]⟩ =
        .awaiting c) :
    (rankAndSelect n e s printed lookups).exit = .awaitingInput ∧
      (rankAndSelect n e s printed lookups).index = none ∧
      (rankAndSelect n e s printed lookups).downloads = [] := by
  obtain ⟨out, hs, _⟩ := sortOut_some s
  unfold rankAndSelect
  simp only [hs, h, and_self]

/-- C10, the code on a closed input: when the lines left on standard input are
all rejected by `Atoi` and the input then ends (end of input, or a last line
without line terminator), the selection loop is still running after any number
`n` of passes, so the run never gets past it: no index, no download, no exit.
On an input that is closed from the start the loop has printed the read
diagnostic `n` times. -/
theorem selectLoop_closed_input_never_exits (e : Env) (s : search)
    (printed lookups : List String) (bad : List String) (l : List Char)
    (hin : e.stdin = linesThen bad l)
    (hbad : ∀ x ∈ bad, '\n' ∉ x.data ∧ Atoi x = none) (h : '\n' ∉ l) (n : Nat) :
    (∃ c, selectLoop n ⟨e.stdin,
        printed ++ ["Please select a torrent to download (enter its index): "]⟩ =
          .awaiting c) ∧
      (rankAndSelect n e s printed lookups).exit = .awaitingInput ∧
      (rankAndSelect n e s printed lookups).index = none ∧
      (rankAndSelect n e s printed lookups).downloads = [] ∧
      (∀ out, ∃ c, selectLoop n ⟨l, out⟩ = .awaiting c ∧ c.stdout = out ++ List.replicate n
        "Could not read your input, please try again (should be an integer):") := by
  obtain ⟨c, hc⟩ := selectLoop_rejected_then_closed bad l hbad h n
    (printed ++ ["Please select a torrent to download (enter its index): "])
  rw [← hin] at hc
  obtain ⟨h1, h2, h3⟩ := rankAndSelect_awaiting n e s printed lookups c hc
  exact ⟨⟨c, hc⟩, h1, h2, h3, fun out => selectLoop_closed l out h n⟩

/-- C10 at a concrete run: source `archive`, two results, and on standard input
the line `abc` followed by a last line `1` without line terminator. -/
theorem selectLoop_closed_input_never_exits_witness :
    (⟨some "archive", ["ubuntu"], "abc\n1".data,
        ⟨fun _ => .ok [⟨"u0", "n0"⟩, ⟨"u1", "n1"⟩], fun _ => .ok "f"⟩, fun _ => none⟩ : Env).stdin
      = linesThen ["abc"] "1".data ∧
    (∀ x ∈ ["abc"], '\n' ∉ x.data ∧ Atoi x = none) ∧ '\n' ∉ "1".data ∧
    (rankAndSelect 1000
      ⟨some "archive", ["ubuntu"], "abc\n1".data,
        ⟨fun _ => .ok [⟨"u0", "n0"⟩, ⟨"u1", "n1"⟩], fun _ => .ok "f"⟩, fun _ => none⟩
      ⟨"ubuntu", [⟨"", "", "u0", "n0", "", "", "", "", "Archive"⟩,
        ⟨"", "", "u1", "n1", "", "", "", "", "Archive"⟩], "archive"⟩ [] ["ubuntu"]).exit =
      .awaitingInput :=
  ⟨by decide, by decide, by decide,
    (selectLoop_closed_input_never_exits
      ⟨some "archive", ["ubuntu"], "abc\n1".data,
        ⟨fun _ => .ok [⟨"u0", "n0"⟩, ⟨"u1", "n1"⟩], fun _ => .ok "f"⟩, fun _ => none⟩
      ⟨"ubuntu", [⟨"", "", "u0", "n0", "", "", "", "", "Archive"⟩,
        ⟨"", "", "u1", "n1", "", "", "", "", "Archive"⟩], "archive"⟩ [] ["ubuntu"]
      ["abc"] "1".data (by decide) (by decide) (by decide) 1000).2.1⟩

end Torrengo
